import Mathlib

/-!
Verification development for the PhiFlow field-extrapolation engine
(`phi/field/_util.py`): `extrapolate` and `create_surface_mask`.

Arrays are modelled as functions `Fin n → α` (1-D, batch and channel axes of
size 1 dropped) and `Fin a → Fin b → α` (2-D spatial data), where `α` is any
linearly ordered commutative ring: the engine uses only ring operations,
absolute values, maxima and comparisons, so the float arrays of the source
are idealized by an arbitrary such `α` (concrete evaluations instantiate
`α := ℤ`).  The numpy `pad`-then-slice idiom of the source composes to index
arithmetic:

* `"symmetric"` padding of width 1 followed by a one-cell slice reads the
  array at a clamped index (edge replication), modelled by `nbr`;
* `"constant"` padding of width 1 followed by a shifted slice reads the
  array at an integer index with 0 outside bounds, modelled by `mread`.

In the source, a direction `d = -1` selects `slice(1, None)` of the array
padded by one cell at the end, i.e. the value at index `i + 1`; `d = +1`
selects the value at `i - 1`.  So a read "toward direction d" is a read at
offset `-d`, clamped (engine) or zero-extended (surface mask).
-/

namespace PhiFlow

variable {α : Type} [LinearOrderedCommRing α]

/-- Clamped index shift: `nbr o i` is `i + o` clamped into `[0, n-1]`.
This is the composite of width-1 `"symmetric"` padding and slicing in the
source (`math.pad(..., "symmetric")` followed by `d_slice`). -/
def nbr {n : ℕ} (o : ℤ) (i : Fin n) : Fin n :=
  ⟨min (((i : ℤ) + o).toNat) (n - 1), by
    have hn : 0 < n := i.pos
    omega⟩

/-- Zero-extended read at an integer index: the composite of width-1
`"constant"` (zero) padding and slicing in `create_surface_mask`. -/
def mread {n : ℕ} (m : Fin n → α) (j : ℤ) : α :=
  if h : 0 ≤ j ∧ j < n then m ⟨j.toNat, by omega⟩ else 0

/-- The per-direction inner-contour indicator of `create_surface_mask`
(1-D instance): `max(mask[shifted], mask[center]) - mask[shifted]`, where
the shifted read for direction `d` is at index `i - d` with zero padding. -/
def bcDir {n : ℕ} (m : Fin n → α) (d : ℤ) (i : Fin n) : α :=
  max (mread m ((i : ℤ) - d)) (m i) - mread m ((i : ℤ) - d)

/-- The direction list `itertools.product((-1, 0, 1))` for rank 1. -/
def dirs1 : List ℤ := [-1, 0, 1]

/-- Surface mask (`create_surface_mask`, 1-D instance): elementwise maximum
of the per-direction indicators, accumulated from an all-zero array. -/
def surfaceMask1 {n : ℕ} (m : Fin n → α) (i : Fin n) : α :=
  dirs1.foldl (fun acc d => max acc (bcDir m d i)) 0

/-- The sign field `signs = -1 * (2 * valid_mask - 1)`: `-1` on filled
cells, `+1` on empty cells. -/
def signs1 {n : ℕ} (m : Fin n → α) (i : Fin n) : α :=
  -1 * (2 * m i - 1)

/-- Initial distance `2.0 * (voxel_distance + 1) * signs`. -/
def sInit1 {n : ℕ} (vd : ℤ) (m : Fin n → α) (i : Fin n) : α :=
  2 * ((vd : α) + 1) * signs1 m i

/-- Distance after zeroing at the surface:
`math.where(surface_mask >= 1, -0.0 * ones_like(s), s)`. -/
def s0 {n : ℕ} (vd : ℤ) (m : Fin n → α) (i : Fin n) : α :=
  if 1 ≤ surfaceMask1 m i then 0 else sInit1 vd m i

/-- Candidate distance for direction `d` in a sweep: the pre-sweep distance
snapshot shifted toward `d` (read at offset `-d`, edge replicated) plus the
step `sqrt((dx*d).dot(dx*d)) * signs`, which in 1-D for `d = ±1` is
`dx * signs`. -/
def dDist {n : ℕ} (dx : α) (m : Fin n → α) (sSnap : Fin n → α) (d : ℤ)
    (i : Fin n) : α :=
  sSnap (nbr (-d) i) + dx * signs1 m i

/-- One direction of a sweep of the iterative extrapolator, lines 104-125 of
the source.  The state is `(ext_data, buffered_distance)`.  The candidate
distance is computed from the pre-sweep snapshot `sSnap`, but the accept
test compares against the current `buffered_distance` and the field
candidate is read from the current `ext_data`; both updates are committed
immediately. -/
def sweepDir {n : ℕ} (dx : α) (m : Fin n → α) (sSnap : Fin n → α)
    (st : (Fin n → α) × (Fin n → α)) (d : ℤ) :
    (Fin n → α) × (Fin n → α) :=
  let cand := dDist dx m sSnap d
  let upd := fun i => |cand i| < |st.2 i| ∧ surfaceMask1 m i ≤ 0
  let updV := fun i => upd i ∧ 0 < signs1 m i
  (fun i => if updV i then st.1 (nbr (-d) i) else st.1 i,
   fun i => if upd i then cand i else st.2 i)

/-- The nonzero sweep directions in rank 1 (the zero direction is skipped by
the `continue`). -/
def sweepDirs1 : List ℤ := [-1, 1]

/-- One sweep of the iterative extrapolator: snapshot the distance as
`buffered_distance`, fold the directions, then replace the distance with the
final buffer (lines 102-127). -/
def sweep {n : ℕ} (dx : α) (m : Fin n → α)
    (st : (Fin n → α) × (Fin n → α)) : (Fin n → α) × (Fin n → α) :=
  sweepDirs1.foldl (sweepDir dx m st.2) st

/-- The full engine for a 1-D centered field (`extrapolate`): initialize,
run `voxel_distance` sweeps, clamp with
`where(|s| < voxel_distance, s, -voxel_distance * (2 * mask - 1))`. -/
def extrapolateCentered {n : ℕ} (m field : Fin n → α) (dx : α) (vd : ℤ) :
    (Fin n → α) × (Fin n → α) :=
  let p := (sweep dx m)^[vd.toNat] (field, s0 vd m)
  (p.1, fun i => if |p.2 i| < (vd : α) then p.2 i
                 else -(vd : α) * (2 * m i - 1))

/-- The engine as the caller observes it: the source body of `extrapolate`
contains no `raise` and no validation, so every call returns a pair;
a configuration error would be `none`. -/
def extrapolateRun {n : ℕ} (m field : Fin n → α) (dx : α) (vd : ℤ) :
    Option ((Fin n → α) × (Fin n → α)) :=
  some (extrapolateCentered m field dx vd)

/-- Spec-side model of one direction of a sweep, following the words of
§4.4 of the spec (claim C1): the accept decision compares the candidate
against the pre-sweep snapshot `sSnap` of the distance, and the field
candidate is read from the pre-sweep snapshot `extPre` of the field, so no
direction observes a value written by an earlier direction of the sweep. -/
def jacobiDir {n : ℕ} (dx : α) (m : Fin n → α) (sSnap extPre : Fin n → α)
    (st : (Fin n → α) × (Fin n → α)) (d : ℤ) :
    (Fin n → α) × (Fin n → α) :=
  let cand := dDist dx m sSnap d
  let upd := fun i => |cand i| < |sSnap i| ∧ surfaceMask1 m i ≤ 0
  (fun i => if upd i ∧ 0 < signs1 m i then extPre (nbr (-d) i) else st.1 i,
   fun i => if upd i then cand i else st.2 i)

/-- Spec-side model of one sweep with Jacobi semantics (claim C1): all
accept decisions and all copied values are taken from the single pre-sweep
snapshot, and the per-direction commits are merged at sweep end. -/
def sweepJacobi {n : ℕ} (dx : α) (m : Fin n → α)
    (st : (Fin n → α) × (Fin n → α)) : (Fin n → α) × (Fin n → α) :=
  sweepDirs1.foldl (jacobiDir dx m st.2 st.1) st

/-- One direction of a sweep, written from the amended reading of claim C1:
the candidate distance comes from the pre-sweep snapshot, the accept test
compares against the running buffer, the field candidate is read from the
running field, and both updates commit immediately. -/
def seqStep {n : ℕ} (dx : α) (m : Fin n → α) (sSnap : Fin n → α)
    (st : (Fin n → α) × (Fin n → α)) (d : ℤ) :
    (Fin n → α) × (Fin n → α) :=
  let cand := fun i => sSnap (nbr (-d) i) + dx * signs1 m i
  let acc := fun i => |cand i| < |st.2 i| ∧ surfaceMask1 m i ≤ 0
  (fun i => if acc i ∧ 0 < signs1 m i then st.1 (nbr (-d) i) else st.1 i,
   fun i => if acc i then cand i else st.2 i)

/-- Sequential processing of a direction list via `seqStep`. -/
def seqDirs {n : ℕ} (dx : α) (m : Fin n → α) (sSnap : Fin n → α) :
    List ℤ → (Fin n → α) × (Fin n → α) → (Fin n → α) × (Fin n → α)
  | [], st => st
  | d :: ds, st => seqDirs dx m sSnap ds (seqStep dx m sSnap st d)

/-- One sweep written from the amended reading of claim C1: snapshot the
distance, then process the directions sequentially. -/
def sweepSeqSpec {n : ℕ} (dx : α) (m : Fin n → α)
    (st : (Fin n → α) × (Fin n → α)) : (Fin n → α) × (Fin n → α) :=
  seqDirs dx m st.2 sweepDirs1 st

/-! ### Two-dimensional definitions

`create_surface_mask` is rank-generic in the source; its rank-2 instance is
needed to state the diagonal-neighbor property, and the staggered-field
boundary seeder (lines 70-100) is inherently rank ≥ 2 for its per-component
restriction.  2-D arrays are `Fin a → Fin b → α`. -/

/-- Zero-extended 2-D read (width-1 `"constant"` padding plus slicing). -/
def mread2 {a b : ℕ} (m : Fin a → Fin b → α) (p q : ℤ) : α :=
  if h : 0 ≤ p ∧ p < a ∧ 0 ≤ q ∧ q < b then
    m ⟨p.toNat, by omega⟩ ⟨q.toNat, by omega⟩ else 0

/-- Per-direction inner-contour indicator of `create_surface_mask`, rank-2
instance; the shifted read for direction `d` is at index `(i,j) - d`. -/
def bcDir2 {a b : ℕ} (m : Fin a → Fin b → α) (d : ℤ × ℤ) (i : Fin a)
    (j : Fin b) : α :=
  max (mread2 m ((i : ℤ) - d.1) ((j : ℤ) - d.2)) (m i j) -
    mread2 m ((i : ℤ) - d.1) ((j : ℤ) - d.2)

/-- The direction list `itertools.product((-1, 0, 1), (-1, 0, 1))`. -/
def dirs2 : List (ℤ × ℤ) :=
  [(-1, -1), (-1, 0), (-1, 1), (0, -1), (0, 0), (0, 1),
   (1, -1), (1, 0), (1, 1)]

/-- Surface mask (`create_surface_mask`, rank-2 instance). -/
def surfaceMask2 {a b : ℕ} (m : Fin a → Fin b → α) (i : Fin a) (j : Fin b) :
    α :=
  dirs2.foldl (fun acc d => max acc (bcDir2 m d i j)) 0

/-- The sign field in 2-D. -/
def signs2 {a b : ℕ} (m : Fin a → Fin b → α) (i : Fin a) (j : Fin b) : α :=
  -1 * (2 * m i j - 1)

/-- Initial distance in 2-D. -/
def sInit2 {a b : ℕ} (vd : ℤ) (m : Fin a → Fin b → α) (i : Fin a)
    (j : Fin b) : α :=
  2 * ((vd : α) + 1) * signs2 m i j

/-- Distance after zeroing at the surface, 2-D. -/
def s02 {a b : ℕ} (vd : ℤ) (m : Fin a → Fin b → α) (i : Fin a) (j : Fin b) :
    α :=
  if 1 ≤ surfaceMask2 m i j then 0 else sInit2 vd m i j

/-- The staggered mask padding of line 52: one trailing layer of zeros on
each spatial axis (`math.pad(valid_mask, [[0,1]]*rank, "constant")`). -/
def padMask2 {h w : ℕ} (m : Fin h → Fin w → α) (i : Fin (h + 1))
    (j : Fin (w + 1)) : α :=
  if hi : (i : ℕ) < h then
    if hj : (j : ℕ) < w then m ⟨i, hi⟩ ⟨j, hj⟩ else 0
  else 0

/-- Edge-replicated read shifted toward direction `(d0, d1)`: the composite
of width-1 `"symmetric"` padding and slicing (read at offset `-d`). -/
def shiftRead2 {a b : ℕ} (d0 d1 : ℤ) (f : Fin a → Fin b → α) (i : Fin a)
    (j : Fin b) : α :=
  f (nbr (-d0) i) (nbr (-d1) j)

/-- The component of a pure axis direction along axis `ax` in rank 2. -/
def axDir (ax : Fin 2) (c : Fin 2) : ℤ :=
  if c = ax then 1 else 0

/-- One step of the boundary seeder (lines 75-97 of `extrapolate`) for the
pure positive axis direction along `ax`.  The state is the pair of the two
staggered tensor components and the working distance.  The distance accept
mask is `(|d_dist| < |s_distance|) & (surface_mask <= 0)`; the field accept
mask additionally requires `signs > 0` and is replaced by all-zeros for the
component whose axis equals the direction's axis (the
`zeros_like(updates_velocity) if d[i] == 1 else updates_velocity` concat of
line 95). -/
def seedStep {a b : ℕ} (dx : Fin 2 → α) (m : Fin a → Fin b → α) (ax : Fin 2)
    (st : (Fin 2 → Fin a → Fin b → α) × (Fin a → Fin b → α)) :
    (Fin 2 → Fin a → Fin b → α) × (Fin a → Fin b → α) :=
  let d0 := axDir ax 0
  let d1 := axDir ax 1
  let cand := fun i j => shiftRead2 d0 d1 st.2 i j + |dx ax| * signs2 m i j
  let upd := fun i j => |cand i j| < |st.2 i j| ∧ surfaceMask2 m i j ≤ 0
  let updV := fun i j => upd i j ∧ 0 < signs2 m i j
  let compMask := fun (c : Fin 2) i j => c ≠ ax ∧ updV i j
  (fun c i j => if compMask c i j then shiftRead2 d0 d1 (st.1 c) i j
                else st.1 c i j,
   fun i j => if upd i j then cand i j else st.2 i j)

/-- The full boundary seeder in rank 2: of the direction product list, only
the strictly non-negative, pure-axis directions survive the two `continue`
filters, in the order `(0,1)` then `(1,0)`. -/
def seeder {a b : ℕ} (dx : Fin 2 → α) (m : Fin a → Fin b → α)
    (st : (Fin 2 → Fin a → Fin b → α) × (Fin a → Fin b → α)) :
    (Fin 2 → Fin a → Fin b → α) × (Fin a → Fin b → α) :=
  seedStep dx m 0 (seedStep dx m 1 st)

/-- A cell is farther than `k` (in cells) from every surface cell. -/
def FarFrom {n : ℕ} (m : Fin n → α) (i : Fin n) (k : ℤ) : Prop :=
  ∀ j : Fin n, 1 ≤ surfaceMask1 m j → k < |(i : ℤ) - (j : ℤ)|

instance {n : ℕ} (m : Fin n → α) (i : Fin n) (k : ℤ) :
    Decidable (FarFrom m i k) := by
  unfold FarFrom; infer_instance

/-! ### Concrete inputs used in counterexamples and witnesses -/

/-- A 4x3 occupancy mask whose first row is empty and whose other rows are
filled; after the staggered padding, cell (2,1) is a filled interior
non-surface cell whose left neighbor (2,0) is a surface cell. -/
def maskC3 : Fin 4 → Fin 3 → ℤ := fun i _ => if (i : ℕ) = 0 then 0 else 1

/-- A concrete staggered working state: two distinguishable field
components together with the initialized distance for `voxel_distance = 1`
over the padded mask of `maskC3`. -/
def stC3 : (Fin 2 → Fin 5 → Fin 4 → ℤ) × (Fin 5 → Fin 4 → ℤ) :=
  (fun c i j => 100 * ((c : ℕ) + 1) + 10 * (i : ℕ) + (j : ℕ),
   s02 1 (padMask2 maskC3))

/-! ### Derived notions for the convergence analysis of the sweeps -/

/-- Grid (Chebyshev) distance from cell `i` to the nearest surface cell,
with sentinel `n` when no surface cell exists. -/
def cheb {n : ℕ} (m : Fin n → α) (i : Fin n) : ℕ :=
  (List.finRange n).foldl
    (fun acc j => if 1 ≤ surfaceMask1 m j
      then min acc (((i : ℤ) - (j : ℤ)).natAbs) else acc) n

/-- Cell `i` has converged by sweep `k`: a surface cell exists, its grid
distance is at most `k`, and the accumulated step distance is below the
initializer magnitude `2 * (voxel_distance + 1)`. -/
def conv {n : ℕ} (m : Fin n → α) (dx : α) (vd : ℤ) (k : ℕ) (i : Fin n) :
    Prop :=
  cheb m i < n ∧ cheb m i ≤ k ∧
    ((cheb m i : ℕ) : α) * dx < 2 * ((vd : α) + 1)

instance {n : ℕ} (m : Fin n → α) (dx : α) (vd : ℤ) (k : ℕ) (i : Fin n) :
    Decidable (conv m dx vd k i) := by
  unfold conv; infer_instance

/-- Closed form of the distance field after `k` sweeps: converged cells
carry `cheb * dx * sign`, the others still carry the initialized value. -/
def chebVal {n : ℕ} (m : Fin n → α) (dx : α) (vd : ℤ) (k : ℕ) (i : Fin n) :
    α :=
  if conv m dx vd k i then ((cheb m i : ℕ) : α) * dx * signs1 m i
  else s0 vd m i

/-- The cell a freshly converging cell copies its field value from: the
direction `-1` (which reads index `i + 1`) is processed first, so a
converged right neighbor wins, otherwise the left neighbor is used. -/
def srcCell {n : ℕ} (m : Fin n → α) (dx : α) (vd : ℤ) (k : ℕ) (i : Fin n) :
    Fin n :=
  if conv m dx vd k (nbr 1 i) then nbr 1 i else nbr (-1) i

/-! ### Helper lemmas -/

theorem foldl_minIf_le_init {β : Type} (p : β → Prop) [DecidablePred p]
    (g : β → ℕ) :
    ∀ (l : List β) (a : ℕ),
      l.foldl (fun acc z => if p z then min acc (g z) else acc) a ≤ a := by
  intro l
  induction l with
  | nil => intro a; exact le_refl a
  | cons x xs ih =>
      intro a
      rw [List.foldl_cons]
      refine le_trans (ih _) ?_
      show (if p x then min a (g x) else a) ≤ a
      split
      · exact min_le_left a (g x)
      · exact le_refl a

theorem foldl_minIf_le {β : Type} (p : β → Prop) [DecidablePred p]
    (g : β → ℕ) :
    ∀ (l : List β) (a : ℕ) (x : β), x ∈ l → p x →
      l.foldl (fun acc z => if p z then min acc (g z) else acc) a ≤ g x := by
  intro l
  induction l with
  | nil => intro a x hx; cases hx
  | cons y ys ih =>
      intro a x hx hp
      rcases List.mem_cons.mp hx with h | h
      · subst h
        rw [List.foldl_cons]
        refine le_trans (foldl_minIf_le_init p g ys _) ?_
        show (if p x then min a (g x) else a) ≤ g x
        rw [if_pos hp]
        exact min_le_right a (g x)
      · rw [List.foldl_cons]
        exact ih _ x h hp

theorem foldl_minIf_attained {β : Type} (p : β → Prop) [DecidablePred p]
    (g : β → ℕ) :
    ∀ (l : List β) (a : ℕ),
      l.foldl (fun acc z => if p z then min acc (g z) else acc) a = a ∨
      ∃ x ∈ l, p x ∧
        l.foldl (fun acc z => if p z then min acc (g z) else acc) a = g x := by
  intro l
  induction l with
  | nil => intro a; exact Or.inl rfl
  | cons y ys ih =>
      intro a
      by_cases hp : p y
      · have e : (y :: ys).foldl
            (fun acc z => if p z then min acc (g z) else acc) a =
            ys.foldl (fun acc z => if p z then min acc (g z) else acc)
              (min a (g y)) := by
          rw [List.foldl_cons]
          congr 1
          show (if p y then min a (g y) else a) = min a (g y)
          rw [if_pos hp]
        rcases ih (min a (g y)) with h | h
        · rcases min_cases a (g y) with ⟨he, _⟩ | ⟨he, _⟩
          · exact Or.inl (by rw [e, h, he])
          · exact Or.inr ⟨y, List.mem_cons_self y ys, hp, by rw [e, h, he]⟩
        · rcases h with ⟨x, hx, hpx, hee⟩
          exact Or.inr ⟨x, List.mem_cons_of_mem y hx, hpx,
            by rw [e]; exact hee⟩
      · have e : (y :: ys).foldl
            (fun acc z => if p z then min acc (g z) else acc) a =
            ys.foldl (fun acc z => if p z then min acc (g z) else acc) a := by
          rw [List.foldl_cons]
          congr 1
          show (if p y then min a (g y) else a) = a
          rw [if_neg hp]
        rcases ih a with h | h
        · exact Or.inl (by rw [e]; exact h)
        · rcases h with ⟨x, hx, hpx, hee⟩
          exact Or.inr ⟨x, List.mem_cons_of_mem y hx, hpx,
            by rw [e]; exact hee⟩

theorem foldl_max_init_le {β : Type} (g : β → α) :
    ∀ (l : List β) (a : α), a ≤ l.foldl (fun acc y => max acc (g y)) a := by
  intro l
  induction l with
  | nil => intro a; exact le_refl a
  | cons x xs ih =>
      intro a
      exact le_trans (le_max_left a (g x)) (ih (max a (g x)))

theorem le_foldl_max {β : Type} (g : β → α) :
    ∀ (l : List β) (a : α) (x : β), x ∈ l →
      g x ≤ l.foldl (fun acc y => max acc (g y)) a := by
  intro l
  induction l with
  | nil => intro a x hx; cases hx
  | cons y ys ih =>
      intro a x hx
      rcases List.mem_cons.mp hx with h | h
      · subst h
        exact le_trans (le_max_right a (g x)) (foldl_max_init_le g ys _)
      · exact ih _ x h

theorem foldl_max_le {β : Type} (g : β → α) :
    ∀ (l : List β) (a c : α), a ≤ c → (∀ x ∈ l, g x ≤ c) →
      l.foldl (fun acc y => max acc (g y)) a ≤ c := by
  intro l
  induction l with
  | nil => intro a c ha _; exact ha
  | cons y ys ih =>
      intro a c ha h
      exact ih _ c (max_le ha (h y (List.mem_cons_self y ys)))
        (fun x hx => h x (List.mem_cons_of_mem y hx))

theorem foldl_max_attained {β : Type} (g : β → α) :
    ∀ (l : List β) (a : α),
      l.foldl (fun acc y => max acc (g y)) a = a ∨
      ∃ x ∈ l, l.foldl (fun acc y => max acc (g y)) a = g x := by
  intro l
  induction l with
  | nil => intro a; exact Or.inl rfl
  | cons y ys ih =>
      intro a
      rcases ih (max a (g y)) with h | h
      · rcases max_cases a (g y) with ⟨he, _⟩ | ⟨he, _⟩
        · exact Or.inl (by rw [List.foldl_cons, h, he])
        · exact Or.inr ⟨y, List.mem_cons_self y ys,
            by rw [List.foldl_cons, h, he]⟩
      · rcases h with ⟨x, hx, he⟩
        exact Or.inr ⟨x, List.mem_cons_of_mem y hx, he⟩

/-- In-bounds zero-extended reads are plain reads (1-D). -/
theorem mread_coe {n : ℕ} (m : Fin n → α) (j : Fin n) :
    mread m (j : ℤ) = m j := by
  unfold mread
  rw [dif_pos ⟨Int.ofNat_nonneg j, by exact_mod_cast j.isLt⟩]
  congr 1

/-- In-bounds zero-extended reads are plain reads (2-D). -/
theorem mread2_coe {a b : ℕ} (m : Fin a → Fin b → α) (i : Fin a)
    (j : Fin b) : mread2 m (i : ℤ) (j : ℤ) = m i j := by
  unfold mread2
  rw [dif_pos ⟨Int.ofNat_nonneg i, by exact_mod_cast i.isLt,
      Int.ofNat_nonneg j, by exact_mod_cast j.isLt⟩]
  have hi : ((((i : ℕ) : ℤ)).toNat) = (i : ℕ) := Int.toNat_natCast _
  have hj : ((((j : ℕ) : ℤ)).toNat) = (j : ℕ) := Int.toNat_natCast _
  simp [hi, hj]

/-- Zero-extended reads of a binary mask are binary. -/
theorem mread2_binary {a b : ℕ} (m : Fin a → Fin b → α)
    (hbin : ∀ i j, m i j = 0 ∨ m i j = 1) (p q : ℤ) :
    mread2 m p q = 0 ∨ mread2 m p q = 1 := by
  unfold mread2
  split
  · exact hbin _ _
  · exact Or.inl rfl

/-- For a binary mask, each direction indicator is 1 exactly when the
center is filled and the shifted neighbor is not, and 0 otherwise. -/
theorem bcDir2_cases {a b : ℕ} (m : Fin a → Fin b → α)
    (hbin : ∀ i j, m i j = 0 ∨ m i j = 1) (d : ℤ × ℤ) (i : Fin a)
    (j : Fin b) :
    (bcDir2 m d i j = 1 ∧ m i j = 1 ∧
      mread2 m ((i : ℤ) - d.1) ((j : ℤ) - d.2) = 0) ∨
    (bcDir2 m d i j = 0 ∧ ¬ (m i j = 1 ∧
      mread2 m ((i : ℤ) - d.1) ((j : ℤ) - d.2) = 0)) := by
  have h01 : max (0 : α) 1 = 1 := max_eq_right zero_le_one
  have h10 : max (1 : α) 0 = 1 := max_eq_left zero_le_one
  unfold bcDir2
  rcases mread2_binary m hbin ((i : ℤ) - d.1) ((j : ℤ) - d.2) with hx | hx <;>
    rcases hbin i j with hc | hc <;> rw [hx, hc]
  · exact Or.inr ⟨by simp, fun h => zero_ne_one h.1⟩
  · exact Or.inl ⟨by rw [h01]; ring, rfl, rfl⟩
  · exact Or.inr ⟨by rw [h10]; ring, fun h => zero_ne_one h.1⟩
  · exact Or.inr ⟨by simp, fun h => one_ne_zero h.2⟩

/-- For a binary mask the surface mask is binary, and is 1 exactly when
some direction indicator is 1. -/
theorem surfaceMask2_eq_one_iff {a b : ℕ} (m : Fin a → Fin b → α)
    (hbin : ∀ i j, m i j = 0 ∨ m i j = 1) (i : Fin a) (j : Fin b) :
    (surfaceMask2 m i j = 0 ∨ surfaceMask2 m i j = 1) ∧
    (surfaceMask2 m i j = 1 ↔ ∃ d ∈ dirs2, m i j = 1 ∧
      mread2 m ((i : ℤ) - d.1) ((j : ℤ) - d.2) = 0) := by
  have hle : ∀ d ∈ dirs2, bcDir2 m d i j ≤ 1 := by
    intro d _
    rcases bcDir2_cases m hbin d i j with ⟨h1, _⟩ | ⟨h0, _⟩
    · exact le_of_eq h1
    · rw [h0]; exact zero_le_one
  have hbd : ∀ d ∈ dirs2, bcDir2 m d i j = 0 ∨ bcDir2 m d i j = 1 := by
    intro d _
    rcases bcDir2_cases m hbin d i j with ⟨h1, _⟩ | ⟨h0, _⟩
    · exact Or.inr h1
    · exact Or.inl h0
  have hattn := foldl_max_attained (fun d => bcDir2 m d i j) dirs2 0
  constructor
  · rcases hattn with h | ⟨x, hx, he⟩
    · exact Or.inl h
    · rcases hbd x hx with h0 | h1
      · exact Or.inl (he.trans h0)
      · exact Or.inr (he.trans h1)
  · constructor
    · intro hone
      rcases hattn with h | ⟨x, hx, he⟩
      · exact absurd (h.symm.trans hone) zero_ne_one
      · rcases bcDir2_cases m hbin x i j with ⟨_, hc⟩ | ⟨h0, _⟩
        · exact ⟨x, hx, hc⟩
        · exact absurd (hone.symm.trans (he.trans h0)) one_ne_zero
    · rintro ⟨d, hd, hcond⟩
      have h1 : bcDir2 m d i j = 1 := by
        rcases bcDir2_cases m hbin d i j with ⟨h1, _⟩ | ⟨_, hn⟩
        · exact h1
        · exact absurd hcond hn
      have hle2 : surfaceMask2 m i j ≤ 1 := by
        unfold surfaceMask2
        exact foldl_max_le (fun d => bcDir2 m d i j) dirs2 0 1 zero_le_one hle
      have hge : bcDir2 m d i j ≤ surfaceMask2 m i j := by
        unfold surfaceMask2
        exact le_foldl_max (fun d => bcDir2 m d i j) dirs2 0 d hd
      exact le_antisymm hle2 (h1 ▸ hge)

/-- Negation closes the rank-2 direction list. -/
theorem neg_mem_dirs2 : ∀ d ∈ dirs2, (-d.1, -d.2) ∈ dirs2 := by decide

/-- C4: for every binary mask, the surface mask is binary and is 1 exactly
at filled cells having at least one neighbor with value 0 in the full
(3^rank - 1)-direction neighborhood, out-of-domain neighbors counting as 0
(constant-zero padding); consequently every filled cell on the domain
border is flagged as surface. -/
theorem surface_mask_characterization :
    ∀ (a b : ℕ) (m : Fin a → Fin b → α),
      (∀ i j, m i j = 0 ∨ m i j = 1) →
      ∀ (i : Fin a) (j : Fin b),
        (surfaceMask2 m i j = 0 ∨ surfaceMask2 m i j = 1) ∧
        (surfaceMask2 m i j = 1 ↔ m i j = 1 ∧ ∃ d ∈ dirs2,
            d ≠ ((0 : ℤ), (0 : ℤ)) ∧
            mread2 m ((i : ℤ) + d.1) ((j : ℤ) + d.2) = 0) ∧
        (m i j = 1 →
          ((i : ℕ) = 0 ∨ (i : ℕ) = a - 1 ∨ (j : ℕ) = 0 ∨ (j : ℕ) = b - 1) →
          surfaceMask2 m i j = 1) := by
  intro a b m hbin i j
  obtain ⟨hb, hiff⟩ := surfaceMask2_eq_one_iff m hbin i j
  have hmain : surfaceMask2 m i j = 1 ↔ m i j = 1 ∧ ∃ d ∈ dirs2,
      d ≠ ((0 : ℤ), (0 : ℤ)) ∧
      mread2 m ((i : ℤ) + d.1) ((j : ℤ) + d.2) = 0 := by
    rw [hiff]
    constructor
    · rintro ⟨d, hd, hm1, hm0⟩
      refine ⟨hm1, (-d.1, -d.2), neg_mem_dirs2 d hd, ?_, ?_⟩
      · intro hz
        have hd1 : d.1 = 0 := by
          have := congrArg Prod.fst hz
          simpa using this
        have hd2 : d.2 = 0 := by
          have := congrArg Prod.snd hz
          simpa using this
        rw [hd1, hd2, sub_zero, sub_zero, mread2_coe] at hm0
        exact one_ne_zero (hm1.symm.trans hm0)
      · simpa [sub_eq_add_neg] using hm0
    · rintro ⟨hm1, d, hd, _, hm0⟩
      refine ⟨(-d.1, -d.2), neg_mem_dirs2 d hd, hm1, ?_⟩
      simpa [sub_neg_eq_add] using hm0
  refine ⟨hb, hmain, ?_⟩
  intro hm1 hborder
  rw [hmain]
  refine ⟨hm1, ?_⟩
  rcases hborder with h | h | h | h
  · refine ⟨(-1, 0), by decide, by decide, ?_⟩
    unfold mread2
    rw [dif_neg]
    omega
  · refine ⟨(1, 0), by decide, by decide, ?_⟩
    unfold mread2
    rw [dif_neg]
    have := i.isLt
    omega
  · refine ⟨(0, -1), by decide, by decide, ?_⟩
    unfold mread2
    rw [dif_neg]
    omega
  · refine ⟨(0, 1), by decide, by decide, ?_⟩
    unfold mread2
    rw [dif_neg]
    have := j.isLt
    omega

/-- C4, witness: a concrete 2x2 binary mask with one empty cell; the fully
surrounded filled cell (1,1) is still surface via its diagonal neighbor. -/
theorem surface_mask_characterization_witness :
    (∀ i j, (![![0, 1], ![1, 1]] : Fin 2 → Fin 2 → ℤ) i j = 0 ∨
      (![![0, 1], ![1, 1]] : Fin 2 → Fin 2 → ℤ) i j = 1) ∧
    (surfaceMask2 (![![0, 1], ![1, 1]] : Fin 2 → Fin 2 → ℤ) 1 1 = 0 ∨
      surfaceMask2 (![![0, 1], ![1, 1]] : Fin 2 → Fin 2 → ℤ) 1 1 = 1) :=
  ⟨by decide,
   (surface_mask_characterization 2 2 ![![0, 1], ![1, 1]] (by decide) 1 1).1⟩

/-! ### Claim theorems -/

/-- C1, counterexample.  On mask `[1,0,1]`, field `[5,0,7]`,
`voxel_distance = 1`: in the source sweep, the direction `+1` compares its
candidate against the buffered distance already written by direction `-1`
at cell 1 and rejects, leaving field `[5,7,7]`; under the spec's Jacobi
semantics (all decisions against the pre-sweep snapshot) direction `+1`
accepts and the field ends `[5,5,7]`.  So a later direction does observe a
buffered-distance value written by an earlier direction of the same sweep. -/
theorem sweep_not_jacobi_counterexample :
    sweep 1 ![(1 : ℤ), 0, 1] (![5, 0, 7], s0 1 ![1, 0, 1]) ≠
      sweepJacobi 1 ![(1 : ℤ), 0, 1] (![5, 0, 7], s0 1 ![1, 0, 1]) ∧
    (sweep 1 ![(1 : ℤ), 0, 1] (![5, 0, 7], s0 1 ![1, 0, 1])).1 1 = 7 ∧
    (sweepJacobi 1 ![(1 : ℤ), 0, 1] (![5, 0, 7], s0 1 ![1, 0, 1])).1 1 = 5 := by
  refine ⟨?_, by decide, by decide⟩
  intro h
  have h1 := congrArg (fun p => p.1 (1 : Fin 3)) h
  revert h1
  decide

/-- C1, amended: within one sweep every direction's candidate distance is
computed from the single pre-sweep snapshot of the distance field, but the
accept decision compares against the buffered distance as updated by
earlier directions of the same sweep, the field candidate is read from the
field as updated by earlier directions, and both updates are committed
immediately after each direction (sequential, not simultaneous, commits). -/
theorem sweep_is_sequential_with_snapshot_candidates :
    ∀ (n : ℕ) (dx : α) (m : Fin n → α)
      (st : (Fin n → α) × (Fin n → α)),
      sweep dx m st = sweepSeqSpec dx m st := by
  intro n dx m st
  rfl

/-- C3, counterexample.  In the boundary seeder step for direction `(0,1)`
over the padded mask of `maskC3`, the distance at cell (2,1) is updated
(from -4 to -1) even though the cell lies on the filled side
(`signs = -1`), because the source updates the distance wherever
`(|d_dist| < |s_distance|) & (surface_mask <= 0)` holds, without the
`signs > 0` condition the claim states. -/
theorem seeder_distance_update_ignores_sign :
    (seedStep (fun _ => 1) (padMask2 maskC3) 1 stC3).2 2 1 ≠ stC3.2 2 1 ∧
    ¬ 0 < signs2 (padMask2 maskC3) 2 1 := by
  refine ⟨?_, by decide⟩
  intro h
  revert h
  decide

/-- C3, amended: in each eligible (pure positive axis) seeder direction,
the shifted distance is accepted into the working distance exactly where
the first two conditions hold (strictly smaller candidate magnitude, not a
surface cell); the shifted field values are accepted exactly where
additionally the cell is on the empty side (`sign > 0`) and the component
is not the one of the direction's own axis. -/
theorem seeder_accept_conditions :
    ∀ (a b : ℕ) (dx : Fin 2 → α) (m : Fin a → Fin b → α) (ax : Fin 2)
      (st : (Fin 2 → Fin a → Fin b → α) × (Fin a → Fin b → α))
      (i : Fin a) (j : Fin b),
      ((seedStep dx m ax st).2 i j =
        if |shiftRead2 (axDir ax 0) (axDir ax 1) st.2 i j +
              |dx ax| * signs2 m i j| < |st.2 i j| ∧
            surfaceMask2 m i j ≤ 0
        then shiftRead2 (axDir ax 0) (axDir ax 1) st.2 i j +
              |dx ax| * signs2 m i j
        else st.2 i j) ∧
      ∀ c : Fin 2,
        (seedStep dx m ax st).1 c i j =
          if c ≠ ax ∧ ((|shiftRead2 (axDir ax 0) (axDir ax 1) st.2 i j +
                |dx ax| * signs2 m i j| < |st.2 i j| ∧
              surfaceMask2 m i j ≤ 0) ∧ 0 < signs2 m i j)
          then shiftRead2 (axDir ax 0) (axDir ax 1) (st.1 c) i j
          else st.1 c i j := by
  intro a b dx m ax st i j
  exact ⟨rfl, fun c => rfl⟩

/-- C5: with `voxel_distance = 0` the sweep loop runs zero times, the clamp
replaces the whole distance field by 0, and the field is returned
unmodified; in particular the literal 1-D scenario of the spec. -/
theorem zero_voxel_distance :
    (∀ (n : ℕ) (m field : Fin n → α) (dx : α),
        extrapolateCentered m field dx 0 = (field, fun _ => 0)) ∧
    extrapolateCentered ![1, 1, 0, 0] ![(5 : ℤ), 7, 9, 9] 1 0 =
      (![5, 7, 9, 9], ![0, 0, 0, 0]) := by
  constructor
  · intro n m field dx
    unfold extrapolateCentered
    simp only [Int.toNat_zero, Function.iterate_zero, id]
    refine Prod.ext rfl ?_
    funext i
    have hno : ¬ |s0 0 m i| < (((0 : ℤ) : α)) := by
      push_cast
      exact not_lt.mpr (abs_nonneg _)
    simp only [hno, if_false]
    push_cast
    ring
  · refine Prod.ext ?_ ?_ <;> funext i <;> fin_cases i <;> decide

/-- C9, counterexample.  The source contains no validation: a call with
`voxel_distance = -1` does not fail; it returns a pair, and the returned
distance at the filled cell is `+1` (a positive distance inside the fluid,
inverting the documented sign convention). -/
theorem negative_voxel_distance_returns :
    (extrapolateRun ![(1 : ℤ)] ![3] 1 (-1)).isSome = true ∧
    extrapolateCentered ![(1 : ℤ)] ![3] 1 (-1) = (![3], ![1]) := by
  refine ⟨rfl, ?_⟩
  refine Prod.ext ?_ ?_ <;> funext i <;> fin_cases i <;> decide

/-- C9, amended: `voxel_distance < 0` is silently accepted; the call
returns normally, the sweep loop runs zero times, the clamp condition
`|s| < voxel_distance` never holds, and every cell of the returned distance
equals `-voxel_distance * (2 * mask - 1)` (sign-inverted saturation);
`voxel_distance = 0` is likewise accepted. -/
theorem nonpositive_voxel_distance_behavior :
    ∀ (n : ℕ) (m field : Fin n → α) (dx : α) (vd : ℤ), vd ≤ 0 →
      extrapolateRun m field dx vd =
        some (field, fun i => -(vd : α) * (2 * m i - 1)) := by
  intro n m field dx vd hvd
  unfold extrapolateRun extrapolateCentered
  have ht : vd.toNat = 0 := Int.toNat_of_nonpos hvd
  simp only [ht, Function.iterate_zero, id]
  congr 1
  refine Prod.ext rfl ?_
  funext i
  have hc : ((vd : α)) ≤ 0 := by exact_mod_cast Int.cast_nonpos.mpr hvd
  have hno : ¬ |s0 vd m i| < ((vd : α)) :=
    not_lt.mpr (le_trans hc (abs_nonneg _))
  simp only [hno, if_false]

/-- C9, amended, witness at `voxel_distance = -1`. -/
theorem nonpositive_voxel_distance_behavior_witness :
    (-1 : ℤ) ≤ 0 ∧
    extrapolateRun ![(1 : ℤ)] ![3] 1 (-1) =
      some (![3], fun i => -(((-1 : ℤ) : ℤ)) * (2 * (![1] : Fin 1 → ℤ) i - 1)) :=
  ⟨by decide,
   nonpositive_voxel_distance_behavior 1 ![1] ![3] 1 (-1) (by decide)⟩

/-- C10: in the boundary seeder step for the pure positive axis direction
along `ax`, the staggered component of axis `ax` itself is never updated;
a component of another axis receives the shifted value exactly where the
velocity-accept mask holds; and the distance update is unaffected by the
per-component restriction. -/
theorem seeder_own_axis_component_frozen :
    ∀ (a b : ℕ) (dx : Fin 2 → α) (m : Fin a → Fin b → α) (ax : Fin 2)
      (st : (Fin 2 → Fin a → Fin b → α) × (Fin a → Fin b → α)),
      ((seedStep dx m ax st).1 ax = st.1 ax) ∧
      (∀ c : Fin 2, c ≠ ax → ∀ (i : Fin a) (j : Fin b),
        (seedStep dx m ax st).1 c i j =
          if (|shiftRead2 (axDir ax 0) (axDir ax 1) st.2 i j +
                |dx ax| * signs2 m i j| < |st.2 i j| ∧
              surfaceMask2 m i j ≤ 0) ∧ 0 < signs2 m i j
          then shiftRead2 (axDir ax 0) (axDir ax 1) (st.1 c) i j
          else st.1 c i j) ∧
      (∀ (i : Fin a) (j : Fin b),
        (seedStep dx m ax st).2 i j =
          if |shiftRead2 (axDir ax 0) (axDir ax 1) st.2 i j +
                |dx ax| * signs2 m i j| < |st.2 i j| ∧
              surfaceMask2 m i j ≤ 0
          then shiftRead2 (axDir ax 0) (axDir ax 1) st.2 i j +
                |dx ax| * signs2 m i j
          else st.2 i j) := by
  intro a b dx m ax st
  refine ⟨?_, ?_, fun i j => rfl⟩
  · funext i j
    show (if (ax ≠ ax ∧ _) then _ else _) = st.1 ax i j
    rw [if_neg]
    intro h
    exact h.1 rfl
  · intro c hc i j
    show (if (c ≠ ax ∧ _) then _ else _) = _
    by_cases h : (|shiftRead2 (axDir ax 0) (axDir ax 1) st.2 i j +
          |dx ax| * signs2 m i j| < |st.2 i j| ∧
        surfaceMask2 m i j ≤ 0) ∧ 0 < signs2 m i j
    · rw [if_pos ⟨hc, h⟩, if_pos h]
    · rw [if_neg (fun hh => h hh.2), if_neg h]

/-- At a cell that is not on the empty side, one sweep direction never
changes the field. -/
theorem sweepDir_ext_frozen {n : ℕ} (dx : α) (m sS : Fin n → α)
    (st : (Fin n → α) × (Fin n → α)) (d : ℤ) (i : Fin n)
    (hneg : ¬ 0 < signs1 m i) :
    (sweepDir dx m sS st d).1 i = st.1 i := by
  show (if (|dDist dx m sS d i| < |st.2 i| ∧ surfaceMask1 m i ≤ 0) ∧
      0 < signs1 m i then st.1 (nbr (-d) i) else st.1 i) = st.1 i
  exact if_neg (fun h => hneg h.2)

/-- At a cell that is not on the empty side, a direction fold never
changes the field. -/
theorem foldl_sweepDir_ext_frozen {n : ℕ} (dx : α) (m sS : Fin n → α)
    (i : Fin n) (hneg : ¬ 0 < signs1 m i) :
    ∀ (l : List ℤ) (st : (Fin n → α) × (Fin n → α)),
      (l.foldl (sweepDir dx m sS) st).1 i = st.1 i := by
  intro l
  induction l with
  | nil => intro st; rfl
  | cons d ds ih =>
      intro st
      rw [List.foldl_cons, ih (sweepDir dx m sS st d),
        sweepDir_ext_frozen dx m sS st d i hneg]

/-- At a cell that is not on the empty side, iterated sweeps never change
the field. -/
theorem iterate_sweep_ext_frozen {n : ℕ} (dx : α) (m : Fin n → α)
    (i : Fin n) (hneg : ¬ 0 < signs1 m i) :
    ∀ (k : ℕ) (st : (Fin n → α) × (Fin n → α)),
      ((sweep dx m)^[k] st).1 i = st.1 i := by
  intro k
  induction k with
  | zero => intro st; rfl
  | succ k ih =>
      intro st
      rw [Function.iterate_succ_apply']
      rw [show sweep dx m ((sweep dx m)^[k] st) =
            sweepDirs1.foldl (sweepDir dx m ((sweep dx m)^[k] st).2)
              ((sweep dx m)^[k] st) from rfl]
      rw [foldl_sweepDir_ext_frozen dx m _ i hneg sweepDirs1 _]
      exact ih st

/-- At a cell that is not on the empty side, one seeder step never changes
any field component. -/
theorem seedStep_ext_frozen {a b : ℕ} (dx : Fin 2 → α)
    (m : Fin a → Fin b → α) (ax : Fin 2)
    (st : (Fin 2 → Fin a → Fin b → α) × (Fin a → Fin b → α)) (i : Fin a)
    (j : Fin b) (hneg : ¬ 0 < signs2 m i j) (c : Fin 2) :
    (seedStep dx m ax st).1 c i j = st.1 c i j := by
  show (if c ≠ ax ∧ ((|shiftRead2 (axDir ax 0) (axDir ax 1) st.2 i j +
        |dx ax| * signs2 m i j| < |st.2 i j| ∧ surfaceMask2 m i j ≤ 0) ∧
      0 < signs2 m i j) then _ else st.1 c i j) = st.1 c i j
  exact if_neg (fun h => hneg h.2.2)

/-- C6: a filled cell's field value is never modified: the returned
extrapolated field of the centered engine agrees with the input field at
every cell with `mask = 1` (covering every sweep of the iterative
extrapolator), and the boundary seeder leaves every field component
unchanged at every cell with `mask = 1`, because every field-update mask
is conjoined with `signs > 0`. -/
theorem filled_cells_field_unmodified :
    (∀ (n : ℕ) (m field : Fin n → α) (dx : α) (vd : ℤ) (i : Fin n),
        m i = 1 → (extrapolateCentered m field dx vd).1 i = field i) ∧
    (∀ (a b : ℕ) (dx : Fin 2 → α) (m : Fin a → Fin b → α)
        (st : (Fin 2 → Fin a → Fin b → α) × (Fin a → Fin b → α))
        (i : Fin a) (j : Fin b) (c : Fin 2),
        m i j = 1 → (seeder dx m st).1 c i j = st.1 c i j) := by
  constructor
  · intro n m field dx vd i hm
    have hs : signs1 m i = -1 := by unfold signs1; rw [hm]; ring
    have hneg : ¬ 0 < signs1 m i := by rw [hs]; norm_num
    show (((sweep dx m)^[vd.toNat]) (field, s0 vd m)).1 i = field i
    exact iterate_sweep_ext_frozen dx m i hneg vd.toNat (field, s0 vd m)
  · intro a b dx m st i j c hm
    have hs : signs2 m i j = -1 := by unfold signs2; rw [hm]; ring
    have hneg : ¬ 0 < signs2 m i j := by rw [hs]; norm_num
    unfold seeder
    rw [seedStep_ext_frozen dx m 0 _ i j hneg c,
      seedStep_ext_frozen dx m 1 st i j hneg c]

/-- C6, witness: a filled cell of a concrete centered run, and a filled
cell of the concrete seeder state. -/
theorem filled_cells_field_unmodified_witness :
    ((![1, 0] : Fin 2 → ℤ) 0 = 1 ∧
      (extrapolateCentered ![(1 : ℤ), 0] ![3, 4] 1 2).1 0 =
        (![3, 4] : Fin 2 → ℤ) 0) ∧
    (padMask2 maskC3 2 1 = 1 ∧
      (seeder (fun _ => 1) (padMask2 maskC3) stC3).1 0 2 1 = stC3.1 0 2 1) :=
  ⟨⟨by decide,
    filled_cells_field_unmodified.1 2 ![1, 0] ![3, 4] 1 2 0 (by decide)⟩,
   ⟨by decide,
    filled_cells_field_unmodified.2 5 4 (fun _ => 1) (padMask2 maskC3) stC3
      2 1 0 (by decide)⟩⟩

/-- One sweep direction never increases the buffered distance magnitude. -/
theorem sweepDir_abs_le {n : ℕ} (dx : α) (m sS : Fin n → α)
    (st : (Fin n → α) × (Fin n → α)) (d : ℤ) (i : Fin n) :
    |(sweepDir dx m sS st d).2 i| ≤ |st.2 i| := by
  show |if |dDist dx m sS d i| < |st.2 i| ∧ surfaceMask1 m i ≤ 0
      then dDist dx m sS d i else st.2 i| ≤ |st.2 i|
  split
  · next h => exact le_of_lt h.1
  · exact le_refl _

/-- A direction fold never increases the buffered distance magnitude. -/
theorem foldl_sweepDir_abs_le {n : ℕ} (dx : α) (m sS : Fin n → α)
    (i : Fin n) :
    ∀ (l : List ℤ) (st : (Fin n → α) × (Fin n → α)),
      |(l.foldl (sweepDir dx m sS) st).2 i| ≤ |st.2 i| := by
  intro l
  induction l with
  | nil => intro st; exact le_refl _
  | cons d ds ih =>
      intro st
      rw [List.foldl_cons]
      exact le_trans (ih (sweepDir dx m sS st d))
        (sweepDir_abs_le dx m sS st d i)

/-- A full sweep never increases the distance magnitude. -/
theorem sweep_abs_le {n : ℕ} (dx : α) (m : Fin n → α)
    (st : (Fin n → α) × (Fin n → α)) (i : Fin n) :
    |(sweep dx m st).2 i| ≤ |st.2 i| := by
  exact foldl_sweepDir_abs_le dx m st.2 i sweepDirs1 st

/-- C7: the distance magnitude is pointwise non-increasing from each sweep
to the next, and a field value changes in a direction step only when the
candidate's distance magnitude is strictly smaller than the cell's current
buffered distance magnitude (and then it is the shifted field value that
is copied). -/
theorem monotone_distance_and_strict_accept :
    (∀ (n : ℕ) (dx : α) (m : Fin n → α)
        (st : (Fin n → α) × (Fin n → α)) (k : ℕ) (i : Fin n),
        |((sweep dx m)^[k + 1] st).2 i| ≤ |((sweep dx m)^[k] st).2 i|) ∧
    (∀ (n : ℕ) (dx : α) (m sSnap : Fin n → α)
        (st : (Fin n → α) × (Fin n → α)) (d : ℤ) (i : Fin n),
        (sweepDir dx m sSnap st d).1 i ≠ st.1 i →
          |dDist dx m sSnap d i| < |st.2 i| ∧
          (sweepDir dx m sSnap st d).1 i = st.1 (nbr (-d) i)) := by
  constructor
  · intro n dx m st k i
    rw [Function.iterate_succ_apply']
    exact sweep_abs_le dx m _ i
  · intro n dx m sS st d i hne
    by_cases h : (|dDist dx m sS d i| < |st.2 i| ∧ surfaceMask1 m i ≤ 0) ∧
        0 < signs1 m i
    · refine ⟨h.1.1, ?_⟩
      show (if (|dDist dx m sS d i| < |st.2 i| ∧ surfaceMask1 m i ≤ 0) ∧
          0 < signs1 m i then st.1 (nbr (-d) i) else st.1 i) = _
      exact if_pos h
    · exfalso
      apply hne
      show (if (|dDist dx m sS d i| < |st.2 i| ∧ surfaceMask1 m i ≤ 0) ∧
          0 < signs1 m i then st.1 (nbr (-d) i) else st.1 i) = st.1 i
      exact if_neg h

/-- C7, witness: a concrete direction step that changes the field at cell 1
of mask `[1,0,1]`, with the strict candidate inequality instantiated. -/
theorem monotone_distance_and_strict_accept_witness :
    (sweepDir 1 ![(1 : ℤ), 0, 1] (s0 1 ![1, 0, 1])
        (![5, 0, 7], s0 1 ![1, 0, 1]) (-1)).1 1 ≠ (![5, 0, 7] : Fin 3 → ℤ) 1 ∧
    |dDist 1 ![(1 : ℤ), 0, 1] (s0 1 ![1, 0, 1]) (-1) 1| <
      |s0 1 ![(1 : ℤ), 0, 1] 1| :=
  ⟨by decide,
   ((monotone_distance_and_strict_accept (α := ℤ)).2 3 1 ![1, 0, 1]
      (s0 1 ![1, 0, 1]) (![5, 0, 7], s0 1 ![1, 0, 1]) (-1) 1 (by decide)).1⟩

/-- A unit clamped shift moves the index by at most one cell. -/
theorem nbr_dist_le_one {n : ℕ} (o : ℤ) (ho : o = -1 ∨ o = 1) (i : Fin n) :
    |(i : ℤ) - ((nbr o i : Fin n) : ℤ)| ≤ 1 := by
  have hv : ((nbr o i : Fin n) : ℤ) =
      ((min (((i : ℤ) + o).toNat) (n - 1) : ℕ) : ℤ) := rfl
  have hi := i.isLt
  rw [hv, abs_le]
  rcases ho with h | h <;> subst h <;> constructor <;> omega

/-- Being farther than `k` is antitone in `k`. -/
theorem farFrom_mono {n : ℕ} (m : Fin n → α) (i : Fin n) {k k' : ℤ}
    (h : k' ≤ k) (hf : FarFrom m i k) : FarFrom m i k' :=
  fun j hj => lt_of_le_of_lt h (hf j hj)

/-- A cell farther than a nonnegative bound from the surface is not a
surface cell. -/
theorem farFrom_not_surface {n : ℕ} (m : Fin n → α) (i : Fin n) {k : ℤ}
    (hk : 0 ≤ k) (hf : FarFrom m i k) : ¬ 1 ≤ surfaceMask1 m i := by
  intro h
  have h0 := hf i h
  rw [sub_self, abs_zero] at h0
  omega

/-- A clamped neighbor of a cell farther than `k + 1` is farther than `k`. -/
theorem farFrom_nbr {n : ℕ} (m : Fin n → α) {i : Fin n} {k : ℤ}
    (hf : FarFrom m i (k + 1)) (o : ℤ) (ho : o = -1 ∨ o = 1) :
    FarFrom m (nbr o i) k := by
  intro j hj
  have h1 := hf j hj
  have h2 := nbr_dist_le_one o ho i
  have h3 := abs_sub_abs_le_abs_sub ((i : ℤ) - j) ((i : ℤ) - (nbr o i))
  have h4 : (i : ℤ) - j - ((i : ℤ) - (nbr o i)) = ((nbr o i : Fin n) : ℤ) - j := by
    ring
  rw [h4] at h3
  linarith

/-- A filled cell adjacent (within one cell, zero-extended read) to a
non-filled position is a surface cell. -/
theorem surface_of_adjacent_empty {n : ℕ} (m : Fin n → α)
    {p : Fin n} (hp : m p = 1) {q : ℤ}
    (hq : mread m q = 0) (hpq : |(p : ℤ) - q| ≤ 1) :
    1 ≤ surfaceMask1 m p := by
  have h01 : max (0 : α) 1 = 1 := max_eq_right zero_le_one
  have hd3 : (p : ℤ) - q = -1 ∨ (p : ℤ) - q = 0 ∨ (p : ℤ) - q = 1 := by
    rw [abs_le] at hpq
    omega
  have hne : (p : ℤ) - q ≠ 0 := by
    intro h0
    have hq' : q = (p : ℤ) := by omega
    rw [hq', mread_coe] at hq
    exact one_ne_zero (hp.symm.trans hq)
  have hdm : ((p : ℤ) - q) ∈ dirs1 := by
    rcases hd3 with h | h | h
    · rw [h]; decide
    · exact absurd h hne
    · rw [h]; decide
  have hbc : bcDir m ((p : ℤ) - q) p = 1 := by
    unfold bcDir
    have he : (p : ℤ) - ((p : ℤ) - q) = q := by ring
    rw [he, hq, hp, h01, sub_zero]
  calc (1 : α) = bcDir m ((p : ℤ) - q) p := hbc.symm
    _ ≤ surfaceMask1 m p := by
        unfold surfaceMask1
        exact le_foldl_max (fun d => bcDir m d p) dirs1 0 _ hdm

/-- The sign field is `+1` or `-1` on a binary mask. -/
theorem signs1_cases {n : ℕ} (m : Fin n → α)
    (hbin : ∀ j, m j = 0 ∨ m j = 1) (i : Fin n) :
    signs1 m i = 1 ∨ signs1 m i = -1 := by
  unfold signs1
  rcases hbin i with h | h <;> rw [h]
  · left; ring
  · right; ring

/-- Next to a cell farther than `k + 1` from the surface (with `k ≥ 0`),
the mask — hence the sign — cannot change: a change would put a surface
cell within one cell of it. -/
theorem far_signs_eq {n : ℕ} (m : Fin n → α)
    (hbin : ∀ j, m j = 0 ∨ m j = 1) {i : Fin n} {k : ℤ} (hk : 0 ≤ k)
    (hf : FarFrom m i (k + 1)) (o : ℤ) (ho : o = -1 ∨ o = 1) :
    signs1 m (nbr o i) = signs1 m i := by
  set j := nbr o i with hj
  have hdist : |(i : ℤ) - (j : ℤ)| ≤ 1 := nbr_dist_le_one o ho i
  rcases hbin i with hi | hi <;> rcases hbin j with hjv | hjv
  · unfold signs1; rw [hi, hjv]
  · exfalso
    have hsurf : 1 ≤ surfaceMask1 m j :=
      surface_of_adjacent_empty m hjv
        (q := (i : ℤ)) (by rw [mread_coe]; exact hi)
        (by rw [abs_sub_comm]; exact hdist)
    have := hf j hsurf
    omega
  · exfalso
    have hsurf : 1 ≤ surfaceMask1 m i :=
      surface_of_adjacent_empty m hi
        (q := (j : ℤ)) (by rw [mread_coe]; exact hjv) hdist
    exact farFrom_not_surface m i (by omega) hf hsurf
  · unfold signs1; rw [hi, hjv]

/-- If every direction's candidate is rejected at `i` against the starting
buffer, the fold leaves the buffered distance at `i` unchanged. -/
theorem foldl_buf_frozen {n : ℕ} (dx : α) (m sS : Fin n → α) (i : Fin n) :
    ∀ (l : List ℤ) (st : (Fin n → α) × (Fin n → α)),
      (∀ d ∈ l, ¬ |dDist dx m sS d i| < |st.2 i|) →
      (l.foldl (sweepDir dx m sS) st).2 i = st.2 i := by
  intro l
  induction l with
  | nil => intro st _; rfl
  | cons d ds ih =>
      intro st hrej
      have hstep : (sweepDir dx m sS st d).2 i = st.2 i := by
        show (if |dDist dx m sS d i| < |st.2 i| ∧ surfaceMask1 m i ≤ 0
            then dDist dx m sS d i else st.2 i) = st.2 i
        exact if_neg (fun h => hrej d (List.mem_cons_self d ds) h.1)
      rw [List.foldl_cons, ih (sweepDir dx m sS st d) (by
        intro e he
        rw [hstep]
        exact hrej e (List.mem_cons_of_mem d he)), hstep]

/-- Cells farther than `k` from every surface cell still carry the initial
distance after `k` sweeps: no candidate with a smaller magnitude can reach
them, because all their neighbors still carry a same-signed initial value. -/
theorem far_keeps_init {n : ℕ} (m field : Fin n → α) (dx : α) (vd : ℤ)
    (hbin : ∀ j, m j = 0 ∨ m j = 1) (hdx : 0 < dx) (hvd : 0 ≤ vd) :
    ∀ (k : ℕ) (i : Fin n), FarFrom m i (k : ℤ) →
      ((sweep dx m)^[k] (field, s0 vd m)).2 i = sInit1 vd m i := by
  have hv0 : (0 : α) ≤ (vd : α) := by exact_mod_cast Int.cast_nonneg.mpr hvd
  intro k
  induction k with
  | zero =>
      intro i hf
      show s0 vd m i = sInit1 vd m i
      unfold s0
      exact if_neg (farFrom_not_surface m i (le_refl 0) hf)
  | succ k ih =>
      intro i hf
      have hf' : FarFrom m i ((k : ℤ) + 1) := by
        have : (((k + 1 : ℕ)) : ℤ) = (k : ℤ) + 1 := by push_cast; ring
        rw [this] at hf
        exact hf
      have hfk : FarFrom m i (k : ℤ) :=
        farFrom_mono m i (by omega) hf'
      rw [Function.iterate_succ_apply']
      set stk := (sweep dx m)^[k] (field, s0 vd m) with hstk
      have hbk : stk.2 i = sInit1 vd m i := ih i hfk
      have hrej : ∀ d ∈ sweepDirs1, ¬ |dDist dx m stk.2 d i| < |stk.2 i| := by
        intro d hd
        have ho : -d = -1 ∨ -d = 1 := by
          have : d = -1 ∨ d = 1 := by
            rcases List.mem_cons.mp hd with h | h
            · exact Or.inl h
            · rcases List.mem_cons.mp h with h' | h'
              · exact Or.inr h'
              · cases h'
          omega
        have hfnb : FarFrom m (nbr (-d) i) (k : ℤ) :=
          farFrom_nbr m hf' (-d) ho
        have hsnb : stk.2 (nbr (-d) i) = sInit1 vd m (nbr (-d) i) :=
          ih _ hfnb
        have hsg : signs1 m (nbr (-d) i) = signs1 m i :=
          far_signs_eq m hbin (by omega) hf' (-d) ho
        unfold dDist
        rw [hsnb, hbk]
        unfold sInit1
        rw [hsg]
        rcases signs1_cases m hbin i with hS | hS <;> rw [hS]
        · have e1 : 2 * ((vd : α) + 1) * 1 + dx * 1 = 2 * ((vd : α) + 1) + dx := by
            ring
          have e2 : 2 * ((vd : α) + 1) * 1 = 2 * ((vd : α) + 1) := by ring
          rw [e1, e2, abs_of_nonneg (by linarith),
            abs_of_nonneg (by linarith : (0 : α) ≤ 2 * ((vd : α) + 1))]
          exact not_lt.mpr (by linarith)
        · have e1 : 2 * ((vd : α) + 1) * (-1) + dx * (-1) =
              -(2 * ((vd : α) + 1) + dx) := by ring
          have e2 : 2 * ((vd : α) + 1) * (-1) = -(2 * ((vd : α) + 1)) := by
            ring
          rw [e1, e2, abs_neg, abs_neg, abs_of_nonneg (by linarith),
            abs_of_nonneg (by linarith : (0 : α) ≤ 2 * ((vd : α) + 1))]
          exact not_lt.mpr (by linarith)
      show (sweepDirs1.foldl (sweepDir dx m stk.2) stk).2 i = sInit1 vd m i
      rw [foldl_buf_frozen dx m stk.2 i sweepDirs1 stk hrej, hbk]

/-- C2, counterexample.  On the all-filled mask `[1,1,1,1,1]` with
`voxel_distance = 1`, cell 2 is farther than 1 from every surface cell and
the returned distance there is `-1 = voxel_distance * sign`, not
`-voxel_distance * sign = +1` as the claim's formula (with
`sign = -1` on filled cells) states. -/
theorem clamp_sign_counterexample :
    FarFrom (![1, 1, 1, 1, 1] : Fin 5 → ℤ) 2 1 ∧
    (extrapolateCentered ![(1 : ℤ), 1, 1, 1, 1] ![0, 0, 0, 0, 0] 1 1).2 2 = -1 ∧
    (extrapolateCentered ![(1 : ℤ), 1, 1, 1, 1] ![0, 0, 0, 0, 0] 1 1).2 2 ≠
      -(1 : ℤ) * signs1 ![(1 : ℤ), 1, 1, 1, 1] 2 := by
  refine ⟨by decide, by decide, ?_⟩
  intro h
  revert h
  decide

/-- C2, amended: the clamp replaces the distance at exactly the cells where
`|distance| >= voxel_distance` with
`distance_limit = -voxel_distance * (2 * mask - 1) = voxel_distance * sign`
(not `-voxel_distance * sign`); and every cell farther than
`voxel_distance` from all surface cells returns exactly
`voxel_distance * sign`. -/
theorem clamp_saturation :
    ∀ (n : ℕ) (m field : Fin n → α) (dx : α) (vd : ℤ),
      (∀ j, m j = 0 ∨ m j = 1) → 0 < dx → 0 ≤ vd →
      ∀ i : Fin n,
        ((extrapolateCentered m field dx vd).2 i =
          if |((sweep dx m)^[vd.toNat] (field, s0 vd m)).2 i| < (vd : α)
          then ((sweep dx m)^[vd.toNat] (field, s0 vd m)).2 i
          else (vd : α) * signs1 m i) ∧
        (FarFrom m i vd →
          (extrapolateCentered m field dx vd).2 i = (vd : α) * signs1 m i) := by
  intro n m field dx vd hbin hdx hvd i
  have hv0 : (0 : α) ≤ (vd : α) := by exact_mod_cast Int.cast_nonneg.mpr hvd
  have hshape : (extrapolateCentered m field dx vd).2 i =
      if |((sweep dx m)^[vd.toNat] (field, s0 vd m)).2 i| < (vd : α)
      then ((sweep dx m)^[vd.toNat] (field, s0 vd m)).2 i
      else (vd : α) * signs1 m i := by
    show (if |((sweep dx m)^[vd.toNat] (field, s0 vd m)).2 i| < (vd : α)
        then ((sweep dx m)^[vd.toNat] (field, s0 vd m)).2 i
        else -(vd : α) * (2 * m i - 1)) = _
    split
    · rfl
    · unfold signs1; ring
  refine ⟨hshape, ?_⟩
  intro hfar
  have hcast : ((vd.toNat : ℕ) : ℤ) = vd := Int.toNat_of_nonneg hvd
  have hinit : ((sweep dx m)^[vd.toNat] (field, s0 vd m)).2 i =
      sInit1 vd m i := by
    apply far_keeps_init m field dx vd hbin hdx hvd vd.toNat i
    rw [hcast]
    exact hfar
  rw [hshape, hinit]
  have habs : |sInit1 vd m i| = 2 * ((vd : α) + 1) := by
    unfold sInit1
    rcases signs1_cases m hbin i with hS | hS <;> rw [hS]
    · rw [mul_one]
      exact abs_of_nonneg (by linarith)
    · have e : 2 * ((vd : α) + 1) * (-1) = -(2 * ((vd : α) + 1)) := by ring
      rw [e, abs_neg]
      exact abs_of_nonneg (by linarith)
  rw [if_neg (by rw [habs]; exact not_lt.mpr (by linarith))]

/-- C2, amended, witness: the all-filled 5-cell mask with
`voxel_distance = 1` at cell 2. -/
theorem clamp_saturation_witness :
    (∀ j, (![1, 1, 1, 1, 1] : Fin 5 → ℤ) j = 0 ∨
      (![1, 1, 1, 1, 1] : Fin 5 → ℤ) j = 1) ∧
    (0 : ℤ) < 1 ∧ (0 : ℤ) ≤ 1 ∧
    FarFrom (![1, 1, 1, 1, 1] : Fin 5 → ℤ) 2 1 ∧
    (extrapolateCentered ![(1 : ℤ), 1, 1, 1, 1] ![0, 0, 0, 0, 0] 1 1).2 2 =
      ((1 : ℤ) : ℤ) * signs1 ![(1 : ℤ), 1, 1, 1, 1] 2 :=
  ⟨by decide, by decide, by decide, by decide,
   (clamp_saturation 5 ![1, 1, 1, 1, 1] ![0, 0, 0, 0, 0] 1 1 (by decide)
      (by decide) (by decide) 2).2 (by decide)⟩

/-! ### Convergence analysis of the sweeps (toward idempotence) -/

/-- Zero-extended reads of a binary mask are binary (1-D). -/
theorem mread_binary {n : ℕ} (m : Fin n → α)
    (hbin : ∀ j, m j = 0 ∨ m j = 1) (q : ℤ) :
    mread m q = 0 ∨ mread m q = 1 := by
  unfold mread
  split
  · exact hbin _
  · exact Or.inl rfl

/-- For a binary mask, each 1-D direction indicator is 1 exactly when the
center is filled and the shifted neighbor is not, and 0 otherwise. -/
theorem bcDir_cases {n : ℕ} (m : Fin n → α)
    (hbin : ∀ j, m j = 0 ∨ m j = 1) (d : ℤ) (i : Fin n) :
    (bcDir m d i = 1 ∧ m i = 1 ∧ mread m ((i : ℤ) - d) = 0) ∨
    (bcDir m d i = 0 ∧ ¬ (m i = 1 ∧ mread m ((i : ℤ) - d) = 0)) := by
  have h01 : max (0 : α) 1 = 1 := max_eq_right zero_le_one
  have h10 : max (1 : α) 0 = 1 := max_eq_left zero_le_one
  unfold bcDir
  rcases mread_binary m hbin ((i : ℤ) - d) with hx | hx <;>
    rcases hbin i with hc | hc <;> rw [hx, hc]
  · exact Or.inr ⟨by simp, fun h => zero_ne_one h.1⟩
  · exact Or.inl ⟨by rw [h01]; ring, rfl, rfl⟩
  · exact Or.inr ⟨by rw [h10]; ring, fun h => zero_ne_one h.1⟩
  · exact Or.inr ⟨by simp, fun h => one_ne_zero h.2⟩

/-- For a binary mask, the 1-D surface mask is binary. -/
theorem surfaceMask1_binary {n : ℕ} (m : Fin n → α)
    (hbin : ∀ j, m j = 0 ∨ m j = 1) (i : Fin n) :
    surfaceMask1 m i = 0 ∨ surfaceMask1 m i = 1 := by
  rcases foldl_max_attained (fun d => bcDir m d i) dirs1 0 with h | ⟨x, hx, he⟩
  · exact Or.inl h
  · rcases bcDir_cases m hbin x i with ⟨h1, _⟩ | ⟨h0, _⟩
    · exact Or.inr (he.trans h1)
    · exact Or.inl (he.trans h0)

/-- For a binary mask, `surface_mask <= 0` is exactly "not a surface
cell". -/
theorem surfaceMask1_nonpos_iff {n : ℕ} (m : Fin n → α)
    (hbin : ∀ j, m j = 0 ∨ m j = 1) (i : Fin n) :
    surfaceMask1 m i ≤ 0 ↔ ¬ 1 ≤ surfaceMask1 m i := by
  rcases surfaceMask1_binary m hbin i with h | h <;> rw [h]
  · exact ⟨fun _ h1 => absurd h1 (not_le.mpr zero_lt_one),
      fun _ => le_refl 0⟩
  · exact ⟨fun h0 => absurd h0 (not_le.mpr zero_lt_one),
      fun h1 => absurd (le_refl 1) h1⟩

/-- Multiplying a nonnegative value by the sign field preserves the
absolute value. -/
theorem abs_mul_signs {n : ℕ} (m : Fin n → α)
    (hbin : ∀ j, m j = 0 ∨ m j = 1) (i : Fin n) (c : α) (hc : 0 ≤ c) :
    |c * signs1 m i| = c := by
  rcases signs1_cases m hbin i with hS | hS <;> rw [hS]
  · rw [mul_one]
    exact abs_of_nonneg hc
  · have e : c * (-1) = -c := by ring
    rw [e, abs_neg]
    exact abs_of_nonneg hc

/-- The grid distance is bounded by the distance to any surface cell. -/
theorem cheb_le_surf {n : ℕ} (m : Fin n → α) (i : Fin n) {j : Fin n}
    (hj : 1 ≤ surfaceMask1 m j) :
    cheb m i ≤ ((i : ℤ) - (j : ℤ)).natAbs :=
  foldl_minIf_le (fun j => 1 ≤ surfaceMask1 m j)
    (fun j => ((i : ℤ) - (j : ℤ)).natAbs) (List.finRange n) n j
    (List.mem_finRange j) hj

/-- The grid distance never exceeds the sentinel `n`. -/
theorem cheb_le_n {n : ℕ} (m : Fin n → α) (i : Fin n) : cheb m i ≤ n :=
  foldl_minIf_le_init (fun j => 1 ≤ surfaceMask1 m j)
    (fun j => ((i : ℤ) - (j : ℤ)).natAbs) (List.finRange n) n

/-- Below the sentinel, the grid distance is attained by a surface cell. -/
theorem cheb_exists {n : ℕ} (m : Fin n → α) (i : Fin n)
    (h : cheb m i < n) :
    ∃ j, 1 ≤ surfaceMask1 m j ∧ ((i : ℤ) - (j : ℤ)).natAbs = cheb m i := by
  rcases foldl_minIf_attained (fun j => 1 ≤ surfaceMask1 m j)
      (fun j => ((i : ℤ) - (j : ℤ)).natAbs) (List.finRange n) n with
    he | ⟨x, _, hpx, he⟩
  · have h' : cheb m i = n := he
    omega
  · exact ⟨x, hpx, he.symm⟩

/-- A surface cell exists below the sentinel distance. -/
theorem cheb_lt_n_of_surf {n : ℕ} (m : Fin n → α) (i : Fin n) {j : Fin n}
    (hj : 1 ≤ surfaceMask1 m j) : cheb m i < n := by
  have h1 := cheb_le_surf m i hj
  have hi := i.isLt
  have hjl := j.isLt
  omega

/-- Surface cells have grid distance 0. -/
theorem cheb_surf_zero {n : ℕ} (m : Fin n → α) {i : Fin n}
    (hi : 1 ≤ surfaceMask1 m i) : cheb m i = 0 := by
  have h := cheb_le_surf m i hi
  rw [sub_self] at h
  simpa using h

/-- Non-surface cells have positive grid distance. -/
theorem cheb_ne_zero {n : ℕ} (m : Fin n → α) {i : Fin n}
    (hns : ¬ 1 ≤ surfaceMask1 m i) : cheb m i ≠ 0 := by
  intro h0
  have hlt : cheb m i < n := by
    have := i.isLt
    omega
  obtain ⟨j, hj, he⟩ := cheb_exists m i hlt
  have hij : i = j := by
    apply Fin.ext
    rw [h0] at he
    omega
  exact hns (hij ▸ hj)

/-- The `natAbs` form of the unit-shift bound. -/
theorem nbr_natAbs_le_one {n : ℕ} (o : ℤ) (ho : o = -1 ∨ o = 1)
    (i : Fin n) : ((i : ℤ) - ((nbr o i : Fin n) : ℤ)).natAbs ≤ 1 := by
  have h := nbr_dist_le_one o ho i
  rw [Int.abs_eq_natAbs] at h
  exact_mod_cast h

/-- Grid distance changes by at most one between neighbors. -/
theorem cheb_nbr {n : ℕ} (m : Fin n → α) (i : Fin n) (o : ℤ)
    (ho : o = -1 ∨ o = 1) : cheb m i ≤ cheb m (nbr o i) + 1 := by
  by_cases h : cheb m (nbr o i) < n
  · obtain ⟨j, hj, he⟩ := cheb_exists m (nbr o i) h
    have h1 : cheb m i ≤ ((i : ℤ) - (j : ℤ)).natAbs := cheb_le_surf m i hj
    have h2 : ((i : ℤ) - (j : ℤ)).natAbs ≤
        ((i : ℤ) - ((nbr o i : Fin n) : ℤ)).natAbs +
        (((nbr o i : Fin n) : ℤ) - (j : ℤ)).natAbs := by
      have e : (i : ℤ) - (j : ℤ) =
          ((i : ℤ) - ((nbr o i : Fin n) : ℤ)) +
          (((nbr o i : Fin n) : ℤ) - (j : ℤ)) := by ring
      rw [e]
      exact Int.natAbs_add_le _ _
    have h3 := nbr_natAbs_le_one o ho i
    omega
  · have h4 := cheb_le_n m i
    omega

/-- Next to a non-surface cell, the mask either agrees or the neighbor is
itself a surface cell. -/
theorem mask_nbr_eq_or_surf {n : ℕ} (m : Fin n → α)
    (hbin : ∀ j, m j = 0 ∨ m j = 1) {i : Fin n}
    (hns : ¬ 1 ≤ surfaceMask1 m i) (o : ℤ) (ho : o = -1 ∨ o = 1) :
    m (nbr o i) = m i ∨ 1 ≤ surfaceMask1 m (nbr o i) := by
  set j := nbr o i with hj
  have hdist : |(i : ℤ) - (j : ℤ)| ≤ 1 := nbr_dist_le_one o ho i
  rcases hbin i with hi | hi <;> rcases hbin j with hjv | hjv
  · exact Or.inl (hjv.trans hi.symm)
  · refine Or.inr (surface_of_adjacent_empty m hjv
      (q := (i : ℤ)) (by rw [mread_coe]; exact hi) ?_)
    rw [abs_sub_comm]
    exact hdist
  · exact absurd (surface_of_adjacent_empty m hi
      (q := (j : ℤ)) (by rw [mread_coe]; exact hjv) hdist) hns
  · exact Or.inl (hjv.trans hi.symm)

/-- Convergence is monotone in the sweep count. -/
theorem conv_mono {n : ℕ} (m : Fin n → α) (dx : α) (vd : ℤ) {k k' : ℕ}
    (h : k ≤ k') {i : Fin n} (hc : conv m dx vd k i) :
    conv m dx vd k' i :=
  ⟨hc.1, le_trans hc.2.1 h, hc.2.2⟩

/-- Surface cells are converged from sweep 0 on. -/
theorem conv_surf {n : ℕ} (m : Fin n → α) (dx : α) {vd : ℤ}
    (hvd : 0 ≤ vd) {i : Fin n} (hi : 1 ≤ surfaceMask1 m i) (k : ℕ) :
    conv m dx vd k i := by
  have hz := cheb_surf_zero m hi
  have hv0 : (0 : α) ≤ (vd : α) := by exact_mod_cast Int.cast_nonneg.mpr hvd
  refine ⟨cheb_lt_n_of_surf m i hi, by omega, ?_⟩
  rw [hz]
  push_cast
  linarith

/-- An unconverged cell is not a surface cell. -/
theorem not_surf_of_not_conv {n : ℕ} (m : Fin n → α) (dx : α) {vd : ℤ}
    (hvd : 0 ≤ vd) {k : ℕ} {i : Fin n} (h : ¬ conv m dx vd k i) :
    ¬ 1 ≤ surfaceMask1 m i :=
  fun hs => h (conv_surf m dx hvd hs k)

/-- Candidate value read from a converged neighbor: one incremental step
beyond the neighbor's converged distance, signed by the target cell. -/
theorem cand_of_conv {n : ℕ} (m : Fin n → α) (dx : α) (vd : ℤ)
    (hbin : ∀ j, m j = 0 ∨ m j = 1) {k : ℕ} (s : Fin n → α)
    (hS : ∀ c, s c = chebVal m dx vd k c) {i : Fin n}
    (hns : ¬ 1 ≤ surfaceMask1 m i) (o : ℤ) (ho : o = -1 ∨ o = 1)
    (hc : conv m dx vd k (nbr o i)) :
    s (nbr o i) + dx * signs1 m i =
      (((cheb m (nbr o i) : ℕ) : α) + 1) * dx * signs1 m i := by
  rw [hS (nbr o i)]
  unfold chebVal
  rw [if_pos hc]
  rcases mask_nbr_eq_or_surf m hbin hns o ho with he | hsurf
  · have hsg : signs1 m (nbr o i) = signs1 m i := by
      unfold signs1
      rw [he]
    rw [hsg]
    ring
  · rw [cheb_surf_zero m hsurf]
    push_cast
    ring

/-- Candidate value read from an unconverged neighbor: the initializer
magnitude plus one step, signed by the target cell. -/
theorem cand_of_not_conv {n : ℕ} (m : Fin n → α) (dx : α) {vd : ℤ}
    (hbin : ∀ j, m j = 0 ∨ m j = 1) (hvd : 0 ≤ vd) {k : ℕ}
    (s : Fin n → α) (hS : ∀ c, s c = chebVal m dx vd k c) {i : Fin n}
    (hns : ¬ 1 ≤ surfaceMask1 m i) (o : ℤ) (ho : o = -1 ∨ o = 1)
    (hc : ¬ conv m dx vd k (nbr o i)) :
    s (nbr o i) + dx * signs1 m i =
      (2 * ((vd : α) + 1) + dx) * signs1 m i := by
  have hnsj : ¬ 1 ≤ surfaceMask1 m (nbr o i) :=
    not_surf_of_not_conv m dx hvd hc
  have he : m (nbr o i) = m i := by
    rcases mask_nbr_eq_or_surf m hbin hns o ho with he | hsurf
    · exact he
    · exact absurd hsurf hnsj
  have hsg : signs1 m (nbr o i) = signs1 m i := by
    unfold signs1
    rw [he]
  rw [hS (nbr o i)]
  unfold chebVal
  rw [if_neg hc]
  unfold s0
  rw [if_neg hnsj]
  unfold sInit1
  rw [hsg]
  ring

/-- At a converged cell no direction's candidate is accepted: converged
neighbors offer at least the cell's own distance, unconverged neighbors
offer more than the initializer magnitude. -/
theorem no_accept_at_conv {n : ℕ} (m : Fin n → α) (dx : α) {vd : ℤ}
    (hbin : ∀ j, m j = 0 ∨ m j = 1) (hdx : 0 < dx) (hvd : 0 ≤ vd)
    {k : ℕ} (s : Fin n → α) (hS : ∀ c, s c = chebVal m dx vd k c)
    {c : Fin n} (hc : conv m dx vd k c) {v : α}
    (hv : v = chebVal m dx vd k c) (o : ℤ) (ho : o = -1 ∨ o = 1) :
    ¬ |s (nbr o c) + dx * signs1 m c| < |v| := by
  have hvc : v = ((cheb m c : ℕ) : α) * dx * signs1 m c := by
    rw [hv]
    unfold chebVal
    rw [if_pos hc]
  have hnn : (0 : α) ≤ ((cheb m c : ℕ) : α) * dx :=
    mul_nonneg (Nat.cast_nonneg _) (le_of_lt hdx)
  have habsv : |v| = ((cheb m c : ℕ) : α) * dx := by
    rw [hvc]
    exact abs_mul_signs m hbin c _ hnn
  by_cases hsurf : 1 ≤ surfaceMask1 m c
  · have hz := cheb_surf_zero m hsurf
    rw [habsv, hz]
    push_cast
    rw [zero_mul]
    exact not_lt.mpr (abs_nonneg _)
  · by_cases hcj : conv m dx vd k (nbr o c)
    · rw [cand_of_conv m dx vd hbin s hS hsurf o ho hcj, habsv]
      have hnnj : (0 : α) ≤ (((cheb m (nbr o c) : ℕ) : α) + 1) * dx :=
        mul_nonneg (by positivity) (le_of_lt hdx)
      rw [abs_mul_signs m hbin c _ hnnj]
      refine not_lt.mpr ?_
      have hle : cheb m c ≤ cheb m (nbr o c) + 1 := cheb_nbr m c o ho
      have hlec : ((cheb m c : ℕ) : α) ≤ ((cheb m (nbr o c) : ℕ) : α) + 1 := by
        exact_mod_cast hle
      exact mul_le_mul_of_nonneg_right hlec (le_of_lt hdx)
    · rw [cand_of_not_conv m dx hbin hvd s hS hsurf o ho hcj, habsv]
      have hnnj : (0 : α) ≤ 2 * ((vd : α) + 1) + dx := by
        have hv0 : (0 : α) ≤ (vd : α) := by
          exact_mod_cast Int.cast_nonneg.mpr hvd
        linarith
      rw [abs_mul_signs m hbin c _ hnnj]
      refine not_lt.mpr ?_
      have := hc.2.2
      linarith

/-- A cell that converges at sweep `k + 1` but not at sweep `k` has grid
distance exactly `k + 1`. -/
theorem cheb_eq_succ {n : ℕ} (m : Fin n → α) (dx : α) (vd : ℤ) {k : ℕ}
    {i : Fin n} (hnk : ¬ conv m dx vd k i) (hC : conv m dx vd (k + 1) i) :
    cheb m i = k + 1 := by
  obtain ⟨h1, h2, h3⟩ := hC
  have hk : ¬ cheb m i ≤ k := fun h => hnk ⟨h1, h, h3⟩
  omega

/-- A converged neighbor of a cell of grid distance `k + 1` has grid
distance exactly `k`. -/
theorem cheb_nbr_of_conv {n : ℕ} (m : Fin n → α) (dx : α) (vd : ℤ)
    {k : ℕ} {i : Fin n} {o : ℤ} (ho : o = -1 ∨ o = 1)
    (hcheb : cheb m i = k + 1) (hc : conv m dx vd k (nbr o i)) :
    cheb m (nbr o i) = k := by
  have h1 := cheb_nbr m i o ho
  have h2 := hc.2.1
  omega

/-- A cell of grid distance `k + 1` (with a surface cell in range and the
step budget available) has a converged neighbor on the side of its nearest
surface cell. -/
theorem exists_conv_side {n : ℕ} (m : Fin n → α) (dx : α) (vd : ℤ)
    (hdx : 0 < dx) {k : ℕ} {i : Fin n} (hcheb : cheb m i = k + 1)
    (hlt : cheb m i < n)
    (hinit : ((cheb m i : ℕ) : α) * dx < 2 * ((vd : α) + 1)) :
    conv m dx vd k (nbr 1 i) ∨ conv m dx vd k (nbr (-1) i) := by
  obtain ⟨j, hj, he⟩ := cheb_exists m i hlt
  rw [hcheb] at he
  have hiv := i.isLt
  have hjv := j.isLt
  by_cases hgt : (i : ℕ) < (j : ℕ)
  · have hval : ((nbr 1 i : Fin n) : ℤ) = (i : ℤ) + 1 := by
      show ((min (((i : ℤ) + 1).toNat) (n - 1) : ℕ) : ℤ) = (i : ℤ) + 1
      omega
    have hle := cheb_le_surf m (nbr 1 i) hj
    rw [hval] at hle
    have hnb_le : cheb m (nbr 1 i) ≤ k := by omega
    refine Or.inl ⟨cheb_lt_n_of_surf m _ hj, hnb_le, ?_⟩
    have hcast : ((cheb m (nbr 1 i) : ℕ) : α) ≤ ((cheb m i : ℕ) : α) := by
      exact_mod_cast (by omega : cheb m (nbr 1 i) ≤ cheb m i)
    exact lt_of_le_of_lt
      (mul_le_mul_of_nonneg_right hcast (le_of_lt hdx)) hinit
  · have hval : ((nbr (-1) i : Fin n) : ℤ) = (i : ℤ) - 1 := by
      show ((min (((i : ℤ) + (-1)).toNat) (n - 1) : ℕ) : ℤ) = (i : ℤ) - 1
      omega
    have hle := cheb_le_surf m (nbr (-1) i) hj
    rw [hval] at hle
    have hnb_le : cheb m (nbr (-1) i) ≤ k := by omega
    refine Or.inr ⟨cheb_lt_n_of_surf m _ hj, hnb_le, ?_⟩
    have hcast : ((cheb m (nbr (-1) i) : ℕ) : α) ≤ ((cheb m i : ℕ) : α) := by
      exact_mod_cast (by omega : cheb m (nbr (-1) i) ≤ cheb m i)
    exact lt_of_le_of_lt
      (mul_le_mul_of_nonneg_right hcast (le_of_lt hdx)) hinit

/-- One sweep maps the closed-form distance field at level `k` to the
closed form at level `k + 1`, and changes the field exactly at the freshly
converging empty-side cells, which copy from `srcCell`. -/
theorem sweep_step_desc {n : ℕ} (m : Fin n → α) (dx : α) (vd : ℤ)
    (hbin : ∀ j, m j = 0 ∨ m j = 1) (hdx : 0 < dx) (hvd : 0 ≤ vd)
    (k : ℕ) (st : (Fin n → α) × (Fin n → α))
    (hS : ∀ c, st.2 c = chebVal m dx vd k c) (i : Fin n) :
    (sweep dx m st).2 i = chebVal m dx vd (k + 1) i ∧
    (sweep dx m st).1 i =
      (if conv m dx vd (k + 1) i ∧ ¬ conv m dx vd k i ∧ 0 < signs1 m i
       then st.1 (srcCell m dx vd k i) else st.1 i) := by
  have hv0 : (0 : α) ≤ (vd : α) := by exact_mod_cast Int.cast_nonneg.mpr hvd
  have hA2 : (sweepDir dx m st.2 st (-1)).2 i =
      if |st.2 (nbr 1 i) + dx * signs1 m i| < |st.2 i| ∧
          surfaceMask1 m i ≤ 0
      then st.2 (nbr 1 i) + dx * signs1 m i else st.2 i := rfl
  have hA1 : (sweepDir dx m st.2 st (-1)).1 i =
      if (|st.2 (nbr 1 i) + dx * signs1 m i| < |st.2 i| ∧
          surfaceMask1 m i ≤ 0) ∧ 0 < signs1 m i
      then st.1 (nbr 1 i) else st.1 i := rfl
  have hR2 : (sweep dx m st).2 i =
      if |st.2 (nbr (-1) i) + dx * signs1 m i| <
          |(sweepDir dx m st.2 st (-1)).2 i| ∧ surfaceMask1 m i ≤ 0
      then st.2 (nbr (-1) i) + dx * signs1 m i
      else (sweepDir dx m st.2 st (-1)).2 i := rfl
  have hR1 : (sweep dx m st).1 i =
      if (|st.2 (nbr (-1) i) + dx * signs1 m i| <
          |(sweepDir dx m st.2 st (-1)).2 i| ∧ surfaceMask1 m i ≤ 0) ∧
          0 < signs1 m i
      then (sweepDir dx m st.2 st (-1)).1 (nbr (-1) i)
      else (sweepDir dx m st.2 st (-1)).1 i := rfl
  by_cases hck : conv m dx vd k i
  · -- already-converged cells (surface cells included): all rejected
    have hrej1 := no_accept_at_conv m dx hbin hdx hvd st.2 hS hck (hS i)
      1 (Or.inr rfl)
    have hrej2 := no_accept_at_conv m dx hbin hdx hvd st.2 hS hck (hS i)
      (-1) (Or.inl rfl)
    have hA2e : (sweepDir dx m st.2 st (-1)).2 i = st.2 i := by
      rw [hA2, if_neg]
      exact fun h => hrej1 h.1
    have hR2e : (sweep dx m st).2 i = st.2 i := by
      rw [hR2, hA2e, if_neg]
      exact fun h => hrej2 h.1
    constructor
    · rw [hR2e, hS i]
      unfold chebVal
      rw [if_pos hck, if_pos (conv_mono m dx vd (Nat.le_succ k) hck)]
    · have hA1e : (sweepDir dx m st.2 st (-1)).1 i = st.1 i := by
        rw [hA1, if_neg]
        exact fun h => hrej1 h.1.1
      have hcond : ¬ ((|st.2 (nbr (-1) i) + dx * signs1 m i| <
          |(sweepDir dx m st.2 st (-1)).2 i| ∧ surfaceMask1 m i ≤ 0) ∧
          0 < signs1 m i) := by
        rw [hA2e]
        exact fun h => hrej2 h.1.1
      rw [hR1, if_neg hcond, hA1e, if_neg (fun h => h.2.1 hck)]
  · by_cases hC : conv m dx vd (k + 1) i
    · -- freshly converging cells
      have hcheb := cheb_eq_succ m dx vd hck hC
      have hns : ¬ 1 ≤ surfaceMask1 m i := not_surf_of_not_conv m dx hvd hck
      have hsc : surfaceMask1 m i ≤ 0 :=
        (surfaceMask1_nonpos_iff m hbin i).mpr hns
      have hvi : st.2 i = 2 * ((vd : α) + 1) * signs1 m i := by
        rw [hS i]
        unfold chebVal
        rw [if_neg hck]
        unfold s0
        rw [if_neg hns]
        rfl
      have habs_i : |st.2 i| = 2 * ((vd : α) + 1) := by
        rw [hvi]
        exact abs_mul_signs m hbin i _ (by linarith)
      have hstep_lt : ((k : α) + 1) * dx < 2 * ((vd : α) + 1) := by
        have h := hC.2.2
        rw [hcheb] at h
        push_cast at h
        exact h
      have hcand_conv : ∀ o, (o = -1 ∨ o = 1) → conv m dx vd k (nbr o i) →
          st.2 (nbr o i) + dx * signs1 m i =
            ((k : α) + 1) * dx * signs1 m i := by
        intro o ho hc
        rw [cand_of_conv m dx vd hbin st.2 hS hns o ho hc,
          cheb_nbr_of_conv m dx vd ho hcheb hc]
      have habs_cand : ∀ o, (o = -1 ∨ o = 1) → conv m dx vd k (nbr o i) →
          |st.2 (nbr o i) + dx * signs1 m i| = ((k : α) + 1) * dx := by
        intro o ho hc
        rw [hcand_conv o ho hc]
        exact abs_mul_signs m hbin i _
          (mul_nonneg (by positivity) (le_of_lt hdx))
      have habs_cand' : ∀ o, (o = -1 ∨ o = 1) →
          ¬ conv m dx vd k (nbr o i) →
          |st.2 (nbr o i) + dx * signs1 m i| = 2 * ((vd : α) + 1) + dx := by
        intro o ho hc
        rw [cand_of_not_conv m dx hbin hvd st.2 hS hns o ho hc]
        exact abs_mul_signs m hbin i _ (by linarith)
      by_cases hc1 : conv m dx vd k (nbr 1 i)
      · -- the right neighbor is converged: direction -1 accepts first
        have hacc1 : |st.2 (nbr 1 i) + dx * signs1 m i| < |st.2 i| := by
          rw [habs_cand 1 (Or.inr rfl) hc1, habs_i]
          exact hstep_lt
        have hA2e : (sweepDir dx m st.2 st (-1)).2 i =
            ((k : α) + 1) * dx * signs1 m i := by
          rw [hA2, if_pos ⟨hacc1, hsc⟩]
          exact hcand_conv 1 (Or.inr rfl) hc1
        have habs_A2 : |(sweepDir dx m st.2 st (-1)).2 i| =
            ((k : α) + 1) * dx := by
          rw [hA2e]
          exact abs_mul_signs m hbin i _
            (mul_nonneg (by positivity) (le_of_lt hdx))
        have hrej2 : ¬ |st.2 (nbr (-1) i) + dx * signs1 m i| <
            |(sweepDir dx m st.2 st (-1)).2 i| := by
          by_cases hc2 : conv m dx vd k (nbr (-1) i)
          · rw [habs_cand (-1) (Or.inl rfl) hc2, habs_A2]
            exact lt_irrefl _
          · rw [habs_cand' (-1) (Or.inl rfl) hc2, habs_A2]
            exact not_lt.mpr (by linarith)
        have hR2e : (sweep dx m st).2 i =
            ((k : α) + 1) * dx * signs1 m i := by
          rw [hR2, if_neg (fun h => hrej2 h.1)]
          exact hA2e
        refine ⟨?_, ?_⟩
        · rw [hR2e]
          unfold chebVal
          rw [if_pos hC, hcheb]
          push_cast
          ring
        · by_cases hsgn : 0 < signs1 m i
          · have hA1e : (sweepDir dx m st.2 st (-1)).1 i = st.1 (nbr 1 i) := by
              rw [hA1, if_pos ⟨⟨hacc1, hsc⟩, hsgn⟩]
            rw [hR1, if_neg (fun h => hrej2 h.1.1), hA1e,
              if_pos ⟨hC, hck, hsgn⟩]
            unfold srcCell
            rw [if_pos hc1]
          · have hA1e : (sweepDir dx m st.2 st (-1)).1 i = st.1 i := by
              rw [hA1, if_neg (fun h => hsgn h.2)]
            rw [hR1, if_neg (fun h => hsgn h.2), hA1e,
              if_neg (fun h => hsgn h.2.2)]
      · -- the left neighbor must be converged: direction +1 accepts
        have hc2 : conv m dx vd k (nbr (-1) i) :=
          (exists_conv_side m dx vd hdx hcheb hC.1 hC.2.2).resolve_left hc1
        have hrej1 : ¬ |st.2 (nbr 1 i) + dx * signs1 m i| < |st.2 i| := by
          rw [habs_cand' 1 (Or.inr rfl) hc1, habs_i]
          exact not_lt.mpr (by linarith)
        have hA2e : (sweepDir dx m st.2 st (-1)).2 i = st.2 i := by
          rw [hA2, if_neg (fun h => hrej1 h.1)]
        have hacc2 : |st.2 (nbr (-1) i) + dx * signs1 m i| <
            |(sweepDir dx m st.2 st (-1)).2 i| := by
          rw [habs_cand (-1) (Or.inl rfl) hc2, hA2e, habs_i]
          exact hstep_lt
        have hR2e : (sweep dx m st).2 i =
            ((k : α) + 1) * dx * signs1 m i := by
          rw [hR2, if_pos ⟨hacc2, hsc⟩]
          exact hcand_conv (-1) (Or.inl rfl) hc2
        refine ⟨?_, ?_⟩
        · rw [hR2e]
          unfold chebVal
          rw [if_pos hC, hcheb]
          push_cast
          ring
        · have hA1q : (sweepDir dx m st.2 st (-1)).1 (nbr (-1) i) =
              st.1 (nbr (-1) i) := by
            have hrejq := no_accept_at_conv m dx hbin hdx hvd st.2 hS hc2
              (hS (nbr (-1) i)) 1 (Or.inr rfl)
            show (if (|st.2 (nbr 1 (nbr (-1) i)) +
                dx * signs1 m (nbr (-1) i)| < |st.2 (nbr (-1) i)| ∧
                surfaceMask1 m (nbr (-1) i) ≤ 0) ∧
                0 < signs1 m (nbr (-1) i)
              then st.1 (nbr 1 (nbr (-1) i)) else st.1 (nbr (-1) i)) =
              st.1 (nbr (-1) i)
            rw [if_neg]
            exact fun h => hrejq h.1.1
          by_cases hsgn : 0 < signs1 m i
          · have hA1e : (sweepDir dx m st.2 st (-1)).1 i = st.1 i := by
              rw [hA1, if_neg (fun h => hrej1 h.1.1)]
            rw [hR1, if_pos ⟨⟨hacc2, hsc⟩, hsgn⟩, hA1q,
              if_pos ⟨hC, hck, hsgn⟩]
            unfold srcCell
            rw [if_neg hc1]
          · have hA1e : (sweepDir dx m st.2 st (-1)).1 i = st.1 i := by
              rw [hA1, if_neg (fun h => hsgn h.2)]
            rw [hR1, if_neg (fun h => hsgn h.2), hA1e,
              if_neg (fun h => hsgn h.2.2)]
    · -- cells still out of reach: all rejected
      have hns : ¬ 1 ≤ surfaceMask1 m i := not_surf_of_not_conv m dx hvd hck
      have hvi : st.2 i = 2 * ((vd : α) + 1) * signs1 m i := by
        rw [hS i]
        unfold chebVal
        rw [if_neg hck]
        unfold s0
        rw [if_neg hns]
        rfl
      have habs_i : |st.2 i| = 2 * ((vd : α) + 1) := by
        rw [hvi]
        exact abs_mul_signs m hbin i _ (by linarith)
      have hrej : ∀ o, (o = -1 ∨ o = 1) →
          ¬ |st.2 (nbr o i) + dx * signs1 m i| < |st.2 i| := by
        intro o ho
        by_cases hcj : conv m dx vd k (nbr o i)
        · rw [cand_of_conv m dx vd hbin st.2 hS hns o ho hcj,
            abs_mul_signs m hbin i _
              (mul_nonneg (by positivity) (le_of_lt hdx)), habs_i]
          refine not_lt.mpr ?_
          have h1 : cheb m i ≤ cheb m (nbr o i) + 1 := cheb_nbr m i o ho
          have hlt_n : cheb m i < n := by
            obtain ⟨j', hj', _⟩ := cheb_exists m (nbr o i) hcj.1
            exact cheb_lt_n_of_surf m i hj'
          have h2 := hcj.2.1
          have hge : ¬ ((cheb m i : ℕ) : α) * dx < 2 * ((vd : α) + 1) := by
            intro hin
            exact hC ⟨hlt_n, by omega, hin⟩
          push_neg at hge
          have hcast : ((cheb m i : ℕ) : α) ≤
              ((cheb m (nbr o i) : ℕ) : α) + 1 := by
            exact_mod_cast h1
          calc 2 * ((vd : α) + 1) ≤ ((cheb m i : ℕ) : α) * dx := hge
            _ ≤ (((cheb m (nbr o i) : ℕ) : α) + 1) * dx :=
              mul_le_mul_of_nonneg_right hcast (le_of_lt hdx)
        · rw [cand_of_not_conv m dx hbin hvd st.2 hS hns o ho hcj,
            abs_mul_signs m hbin i _ (by linarith), habs_i]
          exact not_lt.mpr (by linarith)
      have hA2e : (sweepDir dx m st.2 st (-1)).2 i = st.2 i := by
        rw [hA2, if_neg (fun h => hrej 1 (Or.inr rfl) h.1)]
      have hR2e : (sweep dx m st).2 i = st.2 i := by
        rw [hR2, hA2e, if_neg (fun h => hrej (-1) (Or.inl rfl) h.1)]
      refine ⟨?_, ?_⟩
      · rw [hR2e, hS i]
        unfold chebVal
        rw [if_neg hck, if_neg hC]
      · have hA1e : (sweepDir dx m st.2 st (-1)).1 i = st.1 i := by
          rw [hA1, if_neg (fun h => hrej 1 (Or.inr rfl) h.1.1)]
        have hcond : ¬ ((|st.2 (nbr (-1) i) + dx * signs1 m i| <
            |(sweepDir dx m st.2 st (-1)).2 i| ∧ surfaceMask1 m i ≤ 0) ∧
            0 < signs1 m i) := by
          rw [hA2e]
          exact fun h => hrej (-1) (Or.inl rfl) h.1.1
        rw [hR1, if_neg hcond, hA1e, if_neg (fun h => absurd h.1 hC)]

/-- Closed form of the distance field after `k` sweeps. -/
theorem iterate_snd_char {n : ℕ} (m field : Fin n → α) (dx : α) (vd : ℤ)
    (hbin : ∀ j, m j = 0 ∨ m j = 1) (hdx : 0 < dx) (hvd : 0 ≤ vd) :
    ∀ (k : ℕ) (c : Fin n),
      ((sweep dx m)^[k] (field, s0 vd m)).2 c = chebVal m dx vd k c := by
  intro k
  induction k with
  | zero =>
      intro c
      show s0 vd m c = chebVal m dx vd 0 c
      by_cases hc : conv m dx vd 0 c
      · have hz : cheb m c = 0 := by
          have := hc.2.1
          omega
        have hsurf : 1 ≤ surfaceMask1 m c := by
          by_contra hns
          exact cheb_ne_zero m hns hz
        unfold chebVal s0
        rw [if_pos hc, if_pos hsurf, hz]
        push_cast
        ring
      · unfold chebVal
        rw [if_neg hc]
  | succ k ih =>
      intro c
      rw [Function.iterate_succ_apply']
      exact (sweep_step_desc m dx vd hbin hdx hvd k _ ih c).1

/-- The field after `k + 1` sweeps: freshly converging empty-side cells
copy from their source cell, all others are unchanged. -/
theorem iterate_fst_step {n : ℕ} (m field : Fin n → α) (dx : α) (vd : ℤ)
    (hbin : ∀ j, m j = 0 ∨ m j = 1) (hdx : 0 < dx) (hvd : 0 ≤ vd)
    (k : ℕ) (c : Fin n) :
    ((sweep dx m)^[k + 1] (field, s0 vd m)).1 c =
      (if conv m dx vd (k + 1) c ∧ ¬ conv m dx vd k c ∧ 0 < signs1 m c
       then ((sweep dx m)^[k] (field, s0 vd m)).1 (srcCell m dx vd k c)
       else ((sweep dx m)^[k] (field, s0 vd m)).1 c) := by
  rw [Function.iterate_succ_apply']
  exact (sweep_step_desc m dx vd hbin hdx hvd k _
    (iterate_snd_char m field dx vd hbin hdx hvd k) c).2

/-- Before its convergence sweep, a cell's field value is the input
value. -/
theorem fst_stable_before {n : ℕ} (m field : Fin n → α) (dx : α) (vd : ℤ)
    (hbin : ∀ j, m j = 0 ∨ m j = 1) (hdx : 0 < dx) (hvd : 0 ≤ vd) :
    ∀ (l : ℕ) (c : Fin n), ¬ conv m dx vd l c →
      ((sweep dx m)^[l] (field, s0 vd m)).1 c = field c := by
  intro l
  induction l with
  | zero => intro c _; rfl
  | succ l ih =>
      intro c hc
      rw [iterate_fst_step m field dx vd hbin hdx hvd l c,
        if_neg (fun h => hc h.1)]
      exact ih c (fun h => hc (conv_mono m dx vd (Nat.le_succ l) h))

/-- From its convergence sweep on, a cell's field value never changes. -/
theorem fst_stable_after {n : ℕ} (m field : Fin n → α) (dx : α) (vd : ℤ)
    (hbin : ∀ j, m j = 0 ∨ m j = 1) (hdx : 0 < dx) (hvd : 0 ≤ vd)
    {k : ℕ} {c : Fin n} (hc : conv m dx vd k c) :
    ∀ l, k ≤ l →
      ((sweep dx m)^[l] (field, s0 vd m)).1 c =
        ((sweep dx m)^[k] (field, s0 vd m)).1 c := by
  intro l hl
  induction l, hl using Nat.le_induction with
  | base => rfl
  | succ l hl ih =>
      rw [iterate_fst_step m field dx vd hbin hdx hvd l c,
        if_neg (fun h => h.2.1 (conv_mono m dx vd hl hc))]
      exact ih

/-- The distance side of the sweeps never reads the field side. -/
theorem foldl_snd_indep {n : ℕ} (dx : α) (m sS : Fin n → α) :
    ∀ (l : List ℤ) (st st' : (Fin n → α) × (Fin n → α)), st.2 = st'.2 →
      (l.foldl (sweepDir dx m sS) st).2 =
        (l.foldl (sweepDir dx m sS) st').2 := by
  intro l
  induction l with
  | nil => intro st st' h; exact h
  | cons d ds ih =>
      intro st st' h
      rw [List.foldl_cons, List.foldl_cons]
      refine ih _ _ ?_
      funext i
      show (if |dDist dx m sS d i| < |st.2 i| ∧ surfaceMask1 m i ≤ 0
          then dDist dx m sS d i else st.2 i) =
        (if |dDist dx m sS d i| < |st'.2 i| ∧ surfaceMask1 m i ≤ 0
          then dDist dx m sS d i else st'.2 i)
      rw [h]

/-- The distance field after `k` sweeps does not depend on the input
field. -/
theorem iterate_snd_indep {n : ℕ} (dx : α) (m : Fin n → α) :
    ∀ (k : ℕ) (f g s : Fin n → α),
      ((sweep dx m)^[k] (f, s)).2 = ((sweep dx m)^[k] (g, s)).2 := by
  intro k
  induction k with
  | zero => intro f g s; rfl
  | succ k ih =>
      intro f g s
      rw [Function.iterate_succ_apply', Function.iterate_succ_apply']
      show (List.foldl (sweepDir dx m ((sweep dx m)^[k] (f, s)).2) _ _).2 =
        (List.foldl (sweepDir dx m ((sweep dx m)^[k] (g, s)).2) _ _).2
      rw [ih f g s]
      exact foldl_snd_indep dx m _ sweepDirs1 _ _ (ih f g s)

/-- The source cell of a freshly converging cell is converged. -/
theorem srcCell_conv {n : ℕ} (m : Fin n → α) (dx : α) (vd : ℤ)
    (hdx : 0 < dx) {k : ℕ} {c : Fin n} (hC : conv m dx vd (k + 1) c)
    (hnk : ¬ conv m dx vd k c) :
    conv m dx vd k (srcCell m dx vd k c) := by
  unfold srcCell
  by_cases h1 : conv m dx vd k (nbr 1 c)
  · rw [if_pos h1]
    exact h1
  · rw [if_neg h1]
    exact (exists_conv_side m dx vd hdx
      (cheb_eq_succ m dx vd hnk hC) hC.1 hC.2.2).resolve_left h1

/-- Rerunning the sweeps on the already-extrapolated field reproduces it:
every write of the second run copies a value the first run has already
propagated. -/
theorem iterate_fst_idempotent {n : ℕ} (m field : Fin n → α) (dx : α)
    (vd : ℤ) (hbin : ∀ j, m j = 0 ∨ m j = 1) (hdx : 0 < dx)
    (hvd : 0 ≤ vd) (N : ℕ) :
    ∀ k, k ≤ N → ∀ c : Fin n,
      ((sweep dx m)^[k]
        (((sweep dx m)^[N] (field, s0 vd m)).1, s0 vd m)).1 c =
      ((sweep dx m)^[N] (field, s0 vd m)).1 c := by
  intro k
  induction k with
  | zero => intro _ c; rfl
  | succ k ih =>
      intro hk1 c
      have hk : k ≤ N := by omega
      rw [iterate_fst_step m _ dx vd hbin hdx hvd k c]
      by_cases hcond : conv m dx vd (k + 1) c ∧ ¬ conv m dx vd k c ∧
          0 < signs1 m c
      · rw [if_pos hcond]
        obtain ⟨hC, hnk, hsgn⟩ := hcond
        have hsrc : conv m dx vd k (srcCell m dx vd k c) :=
          srcCell_conv m dx vd hdx hC hnk
        have h1 : ((sweep dx m)^[N] (field, s0 vd m)).1 c =
            ((sweep dx m)^[k + 1] (field, s0 vd m)).1 c :=
          fst_stable_after m field dx vd hbin hdx hvd hC N hk1
        have h2 : ((sweep dx m)^[k + 1] (field, s0 vd m)).1 c =
            ((sweep dx m)^[k] (field, s0 vd m)).1 (srcCell m dx vd k c) := by
          rw [iterate_fst_step m field dx vd hbin hdx hvd k c,
            if_pos ⟨hC, hnk, hsgn⟩]
        have h3 : ((sweep dx m)^[N] (field, s0 vd m)).1
              (srcCell m dx vd k c) =
            ((sweep dx m)^[k] (field, s0 vd m)).1 (srcCell m dx vd k c) :=
          fst_stable_after m field dx vd hbin hdx hvd hsrc N hk
        rw [ih hk (srcCell m dx vd k c), h1, h2, h3]
      · rw [if_neg hcond]
        exact ih hk c

/-- C8: the engine is idempotent: feeding the first call's output field
back into a second call with the same mask, spacing and `voxel_distance`
returns the identical field and the identical distance field. -/
theorem engine_idempotent :
    ∀ (n : ℕ) (m field : Fin n → α) (dx : α) (vd : ℤ),
      (∀ j, m j = 0 ∨ m j = 1) → 0 < dx →
      extrapolateCentered m (extrapolateCentered m field dx vd).1 dx vd =
        extrapolateCentered m field dx vd := by
  intro n m field dx vd hbin hdx
  by_cases hvd : 0 ≤ vd
  case neg =>
    push_neg at hvd
    have ht : vd.toNat = 0 := Int.toNat_of_nonpos (le_of_lt hvd)
    have h1 : (extrapolateCentered m field dx vd).1 = field := by
      show (((sweep dx m)^[vd.toNat]) (field, s0 vd m)).1 = field
      rw [ht]
      rfl
    rw [h1]
  case pos =>
  have hfst : ∀ c, ((sweep dx m)^[vd.toNat]
      (((sweep dx m)^[vd.toNat] (field, s0 vd m)).1, s0 vd m)).1 c =
      ((sweep dx m)^[vd.toNat] (field, s0 vd m)).1 c :=
    iterate_fst_idempotent m field dx vd hbin hdx hvd vd.toNat vd.toNat
      (le_refl _)
  have hsnd : ((sweep dx m)^[vd.toNat]
      (((sweep dx m)^[vd.toNat] (field, s0 vd m)).1, s0 vd m)).2 =
      ((sweep dx m)^[vd.toNat] (field, s0 vd m)).2 :=
    iterate_snd_indep dx m vd.toNat _ field (s0 vd m)
  refine Prod.ext ?_ ?_
  · funext c
    exact hfst c
  · funext c
    show (if |((sweep dx m)^[vd.toNat]
          (((sweep dx m)^[vd.toNat] (field, s0 vd m)).1, s0 vd m)).2 c| <
          (vd : α)
        then ((sweep dx m)^[vd.toNat]
          (((sweep dx m)^[vd.toNat] (field, s0 vd m)).1, s0 vd m)).2 c
        else -(vd : α) * (2 * m c - 1)) =
      (if |((sweep dx m)^[vd.toNat] (field, s0 vd m)).2 c| < (vd : α)
        then ((sweep dx m)^[vd.toNat] (field, s0 vd m)).2 c
        else -(vd : α) * (2 * m c - 1))
    rw [hsnd]

/-- C8, witness: a concrete two-surface mask with `voxel_distance = 2`. -/
theorem engine_idempotent_witness :
    (∀ j, (![1, 0, 0, 1] : Fin 4 → ℤ) j = 0 ∨
      (![1, 0, 0, 1] : Fin 4 → ℤ) j = 1) ∧
    (0 : ℤ) < 1 ∧
    extrapolateCentered ![(1 : ℤ), 0, 0, 1]
        (extrapolateCentered ![(1 : ℤ), 0, 0, 1] ![5, 6, 7, 8] 1 2).1 1 2 =
      extrapolateCentered ![(1 : ℤ), 0, 0, 1] ![5, 6, 7, 8] 1 2 :=
  ⟨by decide, by decide,
   engine_idempotent 4 ![1, 0, 0, 1] ![5, 6, 7, 8] 1 2 (by decide)
     (by decide)⟩

/-- C10, witness: over the concrete seeder state `stC3` with direction
axis 1, updating component 0 at the empty-side cell (1,3). -/
theorem seeder_own_axis_component_frozen_witness :
    (0 : Fin 2) ≠ 1 ∧
    (seedStep (fun _ => 1) (padMask2 maskC3) 1 stC3).1 0 1 3 = 112 :=
  ⟨by decide,
   ((seeder_own_axis_component_frozen 5 4 (fun _ => 1) (padMask2 maskC3) 1
      stC3).2.1 0 (by decide) 1 3).trans (by decide)⟩

end PhiFlow
